import Mathlib

/-!
Verification development for the `orthtree` spatial index
(`src/orthtree/{box,node,orthtree}.h`).

The C++ core is shallowly embedded as follows.

* Coordinates (`TCoord`, a floating-point type in the source) are modelled as
  exact rationals `ℚ`; a D-dimensional point is a function `ℕ → ℚ` whose
  values matter on axes `i < D` only.  All geometric predicates are per-axis
  loops over `List.range D`, exactly mirroring the `for (i = 0; i < DIM; ++i)`
  loops of `box.h`.
* `std::unordered_map<TValue, Box>` buckets and the tree-level registry are
  modelled as association lists `List (ℕ × Box)` with `emplace`
  (insert-if-absent), `erase` (filter) and `merge` (move entries whose key is
  absent from the destination) following the C++ container semantics.  Values
  (`TValue`) are modelled as `ℕ`.
* `Node` and the recursive `BiSection` template are a mutual inductive; the
  axis index `X` of `BiSection<..., X>` (a template parameter in the source)
  is passed as an ordinary argument.
* `Node::Add` recurses through freshly created subdivisions, which is not
  structural recursion (and with exact rational coordinates it need not
  terminate at all, e.g. when many identical point boxes are inserted), so
  `Add` takes a fuel argument and returns `none` when the fuel runs out.
  Every other operation is structural, as in the source.
* `ORTHTREE_DEBUG_ASSERT` has no effect on control flow in the source (it
  either aborts or is compiled out); the asserted conditions are modelled as
  separate predicates where a claim talks about them.  Operations whose
  release-mode behaviour on a violated precondition is undefined
  (`Tree::Del`/`GetBox` on a missing key) return `Option` and yield `none` in
  exactly those cases.
-/

set_option allowUnsafeReducibility true in
attribute [semireducible] Rat.add Rat.mul Rat.inv Rat.sub Rat.ofScientific Rat.neg

namespace Orthtree

/-- Compile-time configuration of the tree: `GROUP_COUNT`, `NODES_SHARE_VAL`
and the dimension `DIM` (template parameters in the source). -/
structure Cfg where
  G : ℕ
  SH : Bool
  D : ℕ

/-- An axis-aligned box: the two corner points `m_pnt_min`, `m_pnt_max` of
`Box<TCoord, DIM>`.  Only axes `i < D` are meaningful. -/
structure Box where
  pntMin : ℕ → ℚ
  pntMax : ℕ → ℚ

/-- The two-point `Box` constructor: per-axis `std::minmax` reordering. -/
def Box.ofPoints (p q : ℕ → ℚ) : Box :=
  ⟨fun i => min (p i) (q i), fun i => max (p i) (q i)⟩

/-- `Box::PntMid(x)`: the midpoint coordinate `(min[x] + max[x]) / 2`. -/
def Box.mid (b : Box) (i : ℕ) : ℚ := (b.pntMin i + b.pntMax i) / 2

/-- The construction invariant of every C++ `Box`: `min[i] ≤ max[i]` on every
axis (enforced by the reordering constructors). -/
def Box.WFb (D : ℕ) (b : Box) : Bool :=
  (List.range D).all fun i => decide (b.pntMin i ≤ b.pntMax i)

/-- `Box::Intersect`: no separation on any axis (closed-interval semantics). -/
def Box.Intersect (D : ℕ) (a b : Box) : Bool :=
  (List.range D).all fun i =>
    !(decide (a.pntMin i > b.pntMax i) || decide (a.pntMax i < b.pntMin i))

/-- `Box::Contain`: boundary-inclusive containment of `other` in `self`. -/
def Box.Contain (D : ℕ) (a b : Box) : Bool :=
  (List.range D).all fun i =>
    !(decide (a.pntMin i > b.pntMin i) || decide (a.pntMax i < b.pntMax i))

/-- `Box::ContainStrict`: strict containment, no boundary contact. -/
def Box.ContainStrict (D : ℕ) (a b : Box) : Bool :=
  (List.range D).all fun i =>
    !(decide (a.pntMin i ≥ b.pntMin i) || decide (a.pntMax i ≤ b.pntMax i))

/-- `Box::ContainOrthant`: `self` contains at least one orthant of `other`. -/
def Box.ContainOrthant (D : ℕ) (a b : Box) : Bool :=
  (List.range D).all fun i =>
    let mid := (b.pntMin i + b.pntMax i) / 2
    (decide (a.pntMin i ≤ b.pntMin i) && decide (a.pntMax i ≥ mid)) &&
    (decide (a.pntMin i ≤ mid) && decide (a.pntMax i ≥ b.pntMax i))

/-- `Box::ContainInOrthant`: `other` fits strictly inside one orthant of
`self` (strictly inside the boundary and not straddling any midpoint). -/
def Box.ContainInOrthant (D : ℕ) (a b : Box) : Bool :=
  (List.range D).all fun i =>
    !(decide (b.pntMax i ≥ a.pntMax i) || decide (b.pntMin i ≤ a.pntMin i)) &&
    !(decide (b.pntMin i ≤ a.mid i) && decide (b.pntMax i ≥ a.mid i))

/-- The loop body of `Box::Intersection`: per-axis max-of-mins/min-of-maxes
with an early `nullopt` return as soon as one axis is empty. -/
def Box.interGo (a b : Box) : Box → List ℕ → Option Box
  | acc, [] => some acc
  | acc, i :: rest =>
    let acc1 : Box := ⟨Function.update acc.pntMin i (max (a.pntMin i) (b.pntMin i)),
                       Function.update acc.pntMax i (min (a.pntMax i) (b.pntMax i))⟩
    if acc1.pntMin i > acc1.pntMax i then none else Box.interGo a b acc1 rest

/-- `Box::Intersection`: the overlap box, or `none` if the boxes are
disjoint.  The accumulator starts from an arbitrary (default-constructed)
box, modelled as all zeroes. -/
def Box.Intersection (D : ℕ) (a b : Box) : Option Box :=
  Box.interGo a b ⟨fun _ => 0, fun _ => 0⟩ (List.range D)

/-! Association-list model of `std::unordered_map<TValue, Box>`. -/

/-- Keys of a bucket / registry. -/
def keysOf (l : List (ℕ × Box)) : List ℕ := l.map Prod.fst

/-- `map.contains(key)`. -/
def containsKey (l : List (ℕ × Box)) (v : ℕ) : Bool := l.any fun p => p.1 == v

/-- `map.emplace(key, value)`: inserts only when the key is absent. -/
def emplace (l : List (ℕ × Box)) (v : ℕ) (b : Box) : List (ℕ × Box) :=
  if containsKey l v then l else l ++ [(v, b)]

/-- `map.erase(key)`. -/
def eraseKey (l : List (ℕ × Box)) (v : ℕ) : List (ℕ × Box) :=
  l.filter fun p => p.1 ≠ v

/-- `map.find(key)` (the mapped box, when present). -/
def lookupKey (l : List (ℕ × Box)) (v : ℕ) : Option Box :=
  (l.find? fun p => p.1 == v).map Prod.snd

/-- `dest.merge(src)`: moves the entries of `src` whose key is absent from
`dest`; colliding entries stay behind in `src` (and are discarded by the one
caller, `Node::Del`'s collapse). -/
def mergeMap (dest src : List (ℕ × Box)) : List (ℕ × Box) :=
  dest ++ src.filter fun p => !(containsKey dest p.1)

/-- `unordered_set<TValue>::insert` on a list model of the set. -/
def insertSet (l : List ℕ) (v : ℕ) : List ℕ := if v ∈ l then l else l ++ [v]

mutual
/-- `Node<TValue, TCoord, DIM, GROUP_COUNT, NODES_SHARE_VAL>`: immutable
region and level, the bucket, `m_values_count` and the optional owned
subdivision. -/
inductive Node : Type where
  | mk (area : Box) (level : ℕ) (bucket : List (ℕ × Box)) (cnt : ℕ) (sub : Option BiSec)
/-- `BiSection<TValue, TNode, TCoord, DIM, X>`: two sub-sections per axis
level, terminating in two `Node`s at `X = 1`. -/
inductive BiSec : Type where
  | leaf (lo hi : Node)
  | bin (lo hi : BiSec)
end

def Node.area : Node → Box
  | .mk a _ _ _ _ => a

def Node.level : Node → ℕ
  | .mk _ l _ _ _ => l

def Node.bucket : Node → List (ℕ × Box)
  | .mk _ _ b _ _ => b

def Node.cnt : Node → ℕ
  | .mk _ _ _ c _ => c

def Node.sub : Node → Option BiSec
  | .mk _ _ _ _ s => s

/-- `Node(area, level)`: fresh node, empty bucket, zero count, no
subdivision. -/
def Node.mkEmpty (area : Box) (lvl : ℕ) : Node := .mk area lvl [] 0 none

/-- The low half of `area` along axis `ax`:
`Box(area.PntMin(), area.PntMax().MidTo(area.PntMin(), ax))`. -/
def loBox (area : Box) (ax : ℕ) : Box :=
  Box.ofPoints area.pntMin
    (Function.update area.pntMax ax ((area.pntMax ax + area.pntMin ax) / 2))

/-- The high half of `area` along axis `ax`:
`Box(area.PntMin().MidTo(area.PntMax(), ax), area.PntMax())`. -/
def hiBox (area : Box) (ax : ℕ) : Box :=
  Box.ofPoints (Function.update area.pntMin ax ((area.pntMin ax + area.pntMax ax) / 2))
    area.pntMax

/-- The `BiSection` constructor chain: at axis level `X ≥ 2` split axis
`X - 1` into two sub-sections, at `X = 1` split axis `0` into two fresh
`Node`s.  (`X = 0` cannot be instantiated in the source, where `DIM > 0`;
it is mapped to the `X = 1` shape to totalise the function.) -/
def mkBiSec : ℕ → Box → ℕ → BiSec
  | 0, area, lvl => .leaf (Node.mkEmpty (loBox area 0) lvl) (Node.mkEmpty (hiBox area 0) lvl)
  | 1, area, lvl => .leaf (Node.mkEmpty (loBox area 0) lvl) (Node.mkEmpty (hiBox area 0) lvl)
  | X+2, area, lvl => .bin (mkBiSec (X+1) (loBox area (X+1)) lvl) (mkBiSec (X+1) (hiBox area (X+1)) lvl)

mutual
/-- All `(value, box)` pairs stored in the subtree of a node (deep contents
of every bucket); specification-level observer. -/
def Node.vals : Node → List (ℕ × Box)
  | .mk _ _ bucket _ none => bucket
  | .mk _ _ bucket _ (some s) => BiSec.vals s ++ bucket
def BiSec.vals : BiSec → List (ℕ × Box)
  | .leaf lo hi => Node.vals lo ++ Node.vals hi
  | .bin lo hi => BiSec.vals lo ++ BiSec.vals hi
end

mutual
/-- `Node::GatherAllValuesDeep(values)`: gather the subdivision first, then
merge this node's bucket into the accumulator. -/
def Node.Gather : Node → List (ℕ × Box) → List (ℕ × Box)
  | .mk _ _ bucket _ none, values => mergeMap values bucket
  | .mk _ _ bucket _ (some s), values => mergeMap (BiSec.Gather s values) bucket
/-- `BiSection::GatherAllValuesDeep(values)`: low section, then high. -/
def BiSec.Gather : BiSec → List (ℕ × Box) → List (ℕ × Box)
  | .leaf lo hi, values => Node.Gather hi (Node.Gather lo values)
  | .bin lo hi, values => BiSec.Gather hi (BiSec.Gather lo values)
end

/-- The bucket scan of `Node::FindIntersected(box, inter)`: insert every
bucket value whose box intersects the query box. -/
def bucketScan (D : ℕ) (b : Box) (bucket : List (ℕ × Box)) (inter : List ℕ) : List ℕ :=
  bucket.foldl (fun acc p => if Box.Intersect D b p.2 then insertSet acc p.1 else acc) inter

mutual
/-- `Node::FindIntersected(box, inter)`: all values in the subtree whose box
intersects the query box (accumulated set). -/
def Node.FindBox (D : ℕ) : Node → Box → List ℕ → List ℕ
  | .mk _ _ bucket _ none, b, inter => bucketScan D b bucket inter
  | .mk _ _ bucket _ (some s), b, inter => BiSec.FindBox D s b (bucketScan D b bucket inter)
/-- `BiSection::FindIntersected(box, inter)`: low section, then high. -/
def BiSec.FindBox (D : ℕ) : BiSec → Box → List ℕ → List ℕ
  | .leaf lo hi, b, inter => Node.FindBox D hi b (Node.FindBox D lo b inter)
  | .bin lo hi, b, inter => BiSec.FindBox D hi b (BiSec.FindBox D lo b inter)
end

/-- The outer bucket loop of `Node::FindIntersected(inter)`: for each bucket
entry, the pairwise scan against the later bucket entries, then the query of
the subdivision against that entry's box. -/
def bucketLoop (D : ℕ) (sub : Option BiSec) : List (ℕ × Box) → List (ℕ × ℕ)
  | [] => []
  | (v, b) :: rest =>
    ((rest.filter fun p => Box.Intersect D b p.2).map fun p => (v, p.1)) ++
    (match sub with
     | some s => (BiSec.FindBox D s b []).map fun u => (v, u)
     | none => []) ++
    bucketLoop D sub rest

mutual
/-- `Node::FindIntersected(inter)`: all intersecting value pairs in the
subtree. -/
def Node.FindPairs (D : ℕ) : Node → List (ℕ × ℕ)
  | .mk _ _ bucket _ none => bucketLoop D none bucket
  | .mk _ _ bucket _ (some s) => bucketLoop D (some s) bucket ++ BiSec.FindPairs D s
/-- `BiSection::FindIntersected(inter)`: low section, then high. -/
def BiSec.FindPairs (D : ℕ) : BiSec → List (ℕ × ℕ)
  | .leaf lo hi => Node.FindPairs D lo ++ Node.FindPairs D hi
  | .bin lo hi => BiSec.FindPairs D lo ++ BiSec.FindPairs D hi
end

/-- `Node::Clear()`: empties the bucket and discards the subdivision.  Note
that the source does not reset `m_values_count`; the model preserves this
behaviour faithfully. -/
def Node.Clear : Node → Node
  | .mk area lvl _ cnt _ => .mk area lvl [] cnt none

/-- `Node::CanFallDeeper(box)`: in shared mode, the box does not itself
contain an orthant of this node's area; in exclusive mode, the box fits
strictly inside one orthant of the area. -/
def canFallDeeper (c : Cfg) (area b : Box) : Bool :=
  if c.SH then !(Box.ContainOrthant c.D b area) else Box.ContainInOrthant c.D area b

mutual
/-- `Node::Add(val, box)`.  The fuel argument bounds the recursion depth
(the C++ recursion is bounded geometrically, not structurally); `none`
means the fuel ran out.  The store-here condition
`!CanFallDeeper(box) || (m_bucket.size() < GROUP_COUNT && m_sub_nodes == nullptr)`
is specialised to the two subdivision states, and the early-return control
flow is rendered monadically with `Option.bind`/`Option.map`. -/
def Node.Add (c : Cfg) : ℕ → Node → ℕ → Box → Option Node
  | 0, _, _, _ => none
  | fuel+1, .mk area lvl bucket cnt none, v, b =>
    if !(canFallDeeper c area b) || decide (bucket.length < c.G) then
      some (.mk area lvl (emplace bucket v b) (cnt+1) none)
    else
      (BiSec.AddList c fuel (mkBiSec c.D area (lvl+1))
          (bucket.filter fun p => canFallDeeper c area p.2) area).bind fun s1 =>
        (BiSec.AddVal c fuel s1 c.D v b area).map fun s2 =>
          Node.mk area lvl (bucket.filter fun p => !(canFallDeeper c area p.2)) (cnt+1) (some s2)
  | fuel+1, .mk area lvl bucket cnt (some s), v, b =>
    if !(canFallDeeper c area b) then
      some (.mk area lvl (emplace bucket v b) (cnt+1) (some s))
    else
      (BiSec.AddVal c fuel s c.D v b area).map fun s1 =>
        Node.mk area lvl bucket (cnt+1) (some s1)
/-- `BiSection::Add(val, box, area)` at axis level `X`: route into the low
section when `box.PntMin()[X-1] <= area_mid`, into the high section when
`box.PntMax()[X-1] >= area_mid` (both, when both hold).  The `X = 1`
specialisation works on axis `0` and tests the high side first, as in the
source. -/
def BiSec.AddVal (c : Cfg) : ℕ → BiSec → ℕ → ℕ → Box → Box → Option BiSec
  | 0, _, _, _, _, _ => none
  | fuel+1, .leaf lo hi, _, v, b, area =>
    ((if b.pntMax 0 ≥ (area.pntMax 0 + area.pntMin 0) / 2
      then Node.Add c fuel hi v b else some hi).bind fun hi1 =>
      (if b.pntMin 0 ≤ (area.pntMax 0 + area.pntMin 0) / 2
       then Node.Add c fuel lo v b else some lo).map fun lo1 =>
        BiSec.leaf lo1 hi1)
  | fuel+1, .bin lo hi, X, v, b, area =>
    ((if b.pntMin (X-1) ≤ (area.pntMax (X-1) + area.pntMin (X-1)) / 2
      then BiSec.AddVal c fuel lo (X-1) v b area else some lo).bind fun lo1 =>
      (if b.pntMax (X-1) ≥ (area.pntMax (X-1) + area.pntMin (X-1)) / 2
       then BiSec.AddVal c fuel hi (X-1) v b area else some hi).map fun hi1 =>
        BiSec.bin lo1 hi1)
/-- The migration loop of `Node::Add`: push a list of bucket entries into a
subdivision one by one. -/
def BiSec.AddList (c : Cfg) : ℕ → BiSec → List (ℕ × Box) → Box → Option BiSec
  | 0, _, _, _ => none
  | _+1, s, [], _ => some s
  | fuel+1, s, p :: rest, area =>
    (BiSec.AddVal c fuel s c.D p.1 p.2 area).bind fun s1 =>
      BiSec.AddList c fuel s1 rest area
end

mutual
/-- `Node::Del(val, box)`: decrement the count; at or below the threshold,
collapse the subdivision into the bucket and erase; otherwise erase from the
bucket or delegate to the subdivision.  (The decrement of the `size_t`
counter is modelled with truncated subtraction; the claims only concern
states where the counter is positive.) -/
def Node.Del (c : Cfg) : Node → ℕ → Box → Node
  | .mk area lvl bucket cnt none, v, _ =>
    if cnt - 1 ≤ c.G then
      .mk area lvl (eraseKey bucket v) (cnt - 1) none
    else
      if containsKey bucket v then .mk area lvl (eraseKey bucket v) (cnt - 1) none
      else .mk area lvl bucket (cnt - 1) none
  | .mk area lvl bucket cnt (some s), v, b =>
    if cnt - 1 ≤ c.G then
      .mk area lvl (eraseKey (BiSec.Gather s bucket) v) (cnt - 1) none
    else
      if containsKey bucket v then .mk area lvl (eraseKey bucket v) (cnt - 1) (some s)
      else .mk area lvl bucket (cnt - 1) (some (BiSec.Del c s c.D v b area))
/-- `BiSection::Del(val, box, area)`: route by the same two independent
midpoint tests as `Add`. -/
def BiSec.Del (c : Cfg) : BiSec → ℕ → ℕ → Box → Box → BiSec
  | .leaf lo hi, _, v, b, area =>
    .leaf (if b.pntMin 0 ≤ (area.pntMax 0 + area.pntMin 0) / 2
           then Node.Del c lo v b else lo)
          (if b.pntMax 0 ≥ (area.pntMax 0 + area.pntMin 0) / 2
           then Node.Del c hi v b else hi)
  | .bin lo hi, X, v, b, area =>
    .bin (if b.pntMin (X-1) ≤ (area.pntMax (X-1) + area.pntMin (X-1)) / 2
          then BiSec.Del c lo (X-1) v b area else lo)
         (if b.pntMax (X-1) ≥ (area.pntMax (X-1) + area.pntMin (X-1)) / 2
          then BiSec.Del c hi (X-1) v b area else hi)
end

/-- `Tree<TValue, TCoord, DIM, GROUP_COUNT, NODES_SHARE_VAL>`: the root node
and the flat registry `m_all_values`. -/
structure Tree where
  root : Node
  allValues : List (ℕ × Box)

namespace Tree

/-- The `Tree` constructor: a root node at level 1 and an empty registry. -/
def new (area : Box) : Tree := ⟨Node.mk area 1 [] 0 none, []⟩

/-- `Tree::area()`. -/
def area (t : Tree) : Box := t.root.area

/-- `Tree::Contains(val)`: registry lookup. -/
def Contains (t : Tree) (v : ℕ) : Bool := containsKey t.allValues v

/-- `Tree::GetBox(val)`; `none` models the undefined behaviour on a missing
value (debug assertion `No such value`). -/
def GetBox (t : Tree) (v : ℕ) : Option Box := lookupKey t.allValues v

/-- `Tree::Add(val, box)`: insert into the root node, then register. -/
def Add (c : Cfg) (fuel : ℕ) (t : Tree) (v : ℕ) (b : Box) : Option Tree :=
  (Node.Add c fuel t.root v b).map fun r => ⟨r, emplace t.allValues v b⟩

/-- `Tree::Del(val)`: look the box up in the registry, delete from the root
node, unregister; `none` models the missing-value undefined behaviour. -/
def Del (c : Cfg) (t : Tree) (v : ℕ) : Option Tree :=
  (lookupKey t.allValues v).map fun b => ⟨Node.Del c t.root v b, eraseKey t.allValues v⟩

/-- `Tree::Change(val, box)`: delete then add. -/
def Change (c : Cfg) (fuel : ℕ) (t : Tree) (v : ℕ) (b : Box) : Option Tree :=
  (Tree.Del c t v).bind fun t1 => Tree.Add c fuel t1 v b

/-- `Tree::Clear()`: clears the root node only; the source does not touch
the registry `m_all_values`, which the model preserves faithfully. -/
def Clear (t : Tree) : Tree := ⟨t.root.Clear, t.allValues⟩

/-- `Tree::FindIntersected()`: all intersecting pairs. -/
def FindIntersectedPairs (c : Cfg) (t : Tree) : List (ℕ × ℕ) :=
  Node.FindPairs c.D t.root

/-- `Tree::FindIntersected(box)`: all values intersecting a query box. -/
def FindIntersectedBox (c : Cfg) (t : Tree) (b : Box) : List ℕ :=
  Node.FindBox c.D t.root b []

/-- `Tree::FindIntersected(val)`: all values intersecting `val`'s stored
box, with `val` itself erased from the result. -/
def FindIntersectedVal (c : Cfg) (t : Tree) (v : ℕ) : Option (List ℕ) :=
  (lookupKey t.allValues v).map fun b => (Node.FindBox c.D t.root b []).filter (· ≠ v)

/-- `Tree::GetAllValues()`. -/
def GetAllValues (t : Tree) : List (ℕ × Box) := t.allValues

end Tree

/-- The tree-level precondition of `Tree::Add`:
`ORTHTREE_DEBUG_ASSERT(area().Contain(box))`. -/
def Tree.AddAreaPre (c : Cfg) (t : Tree) (b : Box) : Bool :=
  Box.Contain c.D (Tree.area t) b

/-- The node-level assertion of `Node::Add`: `Intersect` in shared mode,
`ContainStrict` in the default exclusive mode. -/
def Node.AddAssert (c : Cfg) (n : Node) (b : Box) : Bool :=
  if c.SH then Box.Intersect c.D n.area b else Box.ContainStrict c.D n.area b

end Orthtree

namespace Orthtree

/-! Characterisations of the per-axis loops of `box.h`. -/

theorem wfb_iff {D : ℕ} {b : Box} :
    Box.WFb D b = true ↔ ∀ i < D, b.pntMin i ≤ b.pntMax i := by
  simp [Box.WFb, List.all_eq_true, List.mem_range]

theorem intersect_iff {D : ℕ} {a b : Box} :
    Box.Intersect D a b = true ↔
      ∀ i < D, a.pntMin i ≤ b.pntMax i ∧ b.pntMin i ≤ a.pntMax i := by
  simp only [Box.Intersect, List.all_eq_true, List.mem_range]
  constructor
  · intro h i hi
    have := h i hi
    simp only [Bool.not_eq_true', Bool.or_eq_false_iff, decide_eq_false_iff_not, not_lt] at this
    exact this
  · intro h i hi
    have := h i hi
    simp only [Bool.not_eq_true', Bool.or_eq_false_iff, decide_eq_false_iff_not, not_lt]
    exact this

theorem intersect_self {D : ℕ} {b : Box} (h : Box.WFb D b = true) :
    Box.Intersect D b b = true := by
  rw [intersect_iff]
  intro i hi
  have := wfb_iff.mp h i hi
  exact ⟨this, this⟩

theorem intersect_comm {D : ℕ} {a b : Box} :
    Box.Intersect D a b = Box.Intersect D b a := by
  by_cases h : Box.Intersect D a b = true
  · have h2 : Box.Intersect D b a = true := by
      rw [intersect_iff] at h ⊢
      intro i hi
      exact (h i hi).symm
    rw [h, h2]
  · have h2 : ¬ Box.Intersect D b a = true := by
      intro hba
      apply h
      rw [intersect_iff] at hba ⊢
      intro i hi
      exact (hba i hi).symm
    rw [Bool.not_eq_true] at h h2
    rw [h, h2]

theorem intersect_false_of_sep {D : ℕ} {a b : Box} {i : ℕ}
    (hi : i < D) (hsep : a.pntMax i < b.pntMin i) :
    Box.Intersect D a b = false := by
  rw [Bool.eq_false_iff]
  intro h
  have := (intersect_iff.mp h i hi).2
  exact absurd hsep (not_lt.mpr this)

theorem cio_iff {D : ℕ} {a b : Box} :
    Box.ContainInOrthant D a b = true ↔
      ∀ i < D, b.pntMax i < a.pntMax i ∧ a.pntMin i < b.pntMin i ∧
        ¬(b.pntMin i ≤ Box.mid a i ∧ Box.mid a i ≤ b.pntMax i) := by
  rw [Box.ContainInOrthant, List.all_eq_true]
  constructor
  · intro h i hi
    have hx := h i (List.mem_range.mpr hi)
    revert hx
    simp only [Bool.and_eq_true, Bool.not_eq_true', Bool.or_eq_false_iff,
      Bool.and_eq_false_iff, decide_eq_false_iff_not, decide_eq_true_eq, ge_iff_le, not_le]
    rintro ⟨⟨h1, h2⟩, h3⟩
    refine ⟨h1, h2, ?_⟩
    rintro ⟨hl, hr⟩
    rcases h3 with h3 | h3
    · exact absurd hl (not_le.mpr h3)
    · exact absurd hr (not_le.mpr h3)
  · intro h i hi
    rw [List.mem_range] at hi
    obtain ⟨h1, h2, h3⟩ := h i hi
    simp only [Bool.and_eq_true, Bool.not_eq_true', Bool.or_eq_false_iff,
      Bool.and_eq_false_iff, decide_eq_false_iff_not, decide_eq_true_eq, ge_iff_le, not_le]
    refine ⟨⟨h1, h2⟩, ?_⟩
    by_cases hl : b.pntMin i ≤ Box.mid a i
    · right
      by_contra hr
      rw [not_lt] at hr
      exact h3 ⟨hl, hr⟩
    · left
      exact not_le.mp hl

/-! Lemmas about the the bisected half-areas. -/

theorem loBox_min {A : Box} {ax : ℕ} {D : ℕ} (hA : Box.WFb D A = true) {i : ℕ} (hi : i < D) :
    (loBox A ax).pntMin i = A.pntMin i := by
  have hwf := wfb_iff.mp hA i hi
  simp only [loBox, Box.ofPoints]
  by_cases h : i = ax
  · subst h
    simp only [Function.update_same]
    have h2 : A.pntMin i ≤ (A.pntMax i + A.pntMin i) / 2 := by linarith
    exact min_eq_left h2
  · rw [Function.update_noteq h]
    exact min_eq_left hwf

theorem loBox_max_ne {A : Box} {ax : ℕ} {D : ℕ} (hA : Box.WFb D A = true) {i : ℕ}
    (hi : i < D) (hne : i ≠ ax) :
    (loBox A ax).pntMax i = A.pntMax i := by
  have hwf := wfb_iff.mp hA i hi
  simp only [loBox, Box.ofPoints]
  rw [Function.update_noteq hne]
  exact max_eq_right hwf

theorem loBox_max_ax {A : Box} {ax : ℕ} {D : ℕ} (hA : Box.WFb D A = true) (hax : ax < D) :
    (loBox A ax).pntMax ax = Box.mid A ax := by
  have hwf := wfb_iff.mp hA ax hax
  simp only [loBox, Box.ofPoints, Box.mid]
  rw [Function.update_same]
  have h2 : A.pntMin ax ≤ (A.pntMax ax + A.pntMin ax) / 2 := by linarith
  rw [max_eq_right h2]
  ring

theorem hiBox_max {A : Box} {ax : ℕ} {D : ℕ} (hA : Box.WFb D A = true) {i : ℕ} (hi : i < D) :
    (hiBox A ax).pntMax i = A.pntMax i := by
  have hwf := wfb_iff.mp hA i hi
  simp only [hiBox, Box.ofPoints]
  by_cases h : i = ax
  · subst h
    simp only [Function.update_same]
    have h2 : (A.pntMin i + A.pntMax i) / 2 ≤ A.pntMax i := by linarith
    exact max_eq_right h2
  · rw [Function.update_noteq h]
    exact max_eq_right hwf

theorem hiBox_min_ne {A : Box} {ax : ℕ} {D : ℕ} (hA : Box.WFb D A = true) {i : ℕ}
    (hi : i < D) (hne : i ≠ ax) :
    (hiBox A ax).pntMin i = A.pntMin i := by
  have hwf := wfb_iff.mp hA i hi
  simp only [hiBox, Box.ofPoints]
  rw [Function.update_noteq hne]
  exact min_eq_left hwf

theorem hiBox_min_ax {A : Box} {ax : ℕ} {D : ℕ} (hA : Box.WFb D A = true) (hax : ax < D) :
    (hiBox A ax).pntMin ax = Box.mid A ax := by
  have hwf := wfb_iff.mp hA ax hax
  simp only [hiBox, Box.ofPoints, Box.mid]
  rw [Function.update_same]
  have h2 : (A.pntMin ax + A.pntMax ax) / 2 ≤ A.pntMax ax := by linarith
  rw [min_eq_left h2]

theorem loBox_wf {A : Box} {ax : ℕ} {D : ℕ} (hA : Box.WFb D A = true) :
    Box.WFb D (loBox A ax) = true := by
  rw [wfb_iff]
  intro i hi
  have hwf := wfb_iff.mp hA i hi
  rw [loBox_min hA hi]
  by_cases h : i = ax
  · subst h
    by_cases hax : i < D
    · rw [loBox_max_ax hA hax]
      simp only [Box.mid]
      linarith
    · exact absurd hi hax
  · rw [loBox_max_ne hA hi h]
    exact hwf

theorem hiBox_wf {A : Box} {ax : ℕ} {D : ℕ} (hA : Box.WFb D A = true) :
    Box.WFb D (hiBox A ax) = true := by
  rw [wfb_iff]
  intro i hi
  have hwf := wfb_iff.mp hA i hi
  rw [hiBox_max hA hi]
  by_cases h : i = ax
  · subst h
    rw [hiBox_min_ax hA hi]
    simp only [Box.mid]
    linarith
  · rw [hiBox_min_ne hA hi h]
    exact hwf

end Orthtree


namespace Orthtree

/-! Association-list lemmas. -/

theorem keysOf_append {l1 l2 : List (ℕ × Box)} :
    keysOf (l1 ++ l2) = keysOf l1 ++ keysOf l2 := List.map_append _ _ _

theorem mem_keysOf {l : List (ℕ × Box)} {v : ℕ} :
    v ∈ keysOf l ↔ ∃ b, (v, b) ∈ l := by
  simp only [keysOf, List.mem_map, Prod.exists]
  constructor
  · rintro ⟨a, b, hm, rfl⟩
    exact ⟨b, hm⟩
  · rintro ⟨b, hm⟩
    exact ⟨v, b, hm, rfl⟩

theorem containsKey_iff {l : List (ℕ × Box)} {v : ℕ} :
    containsKey l v = true ↔ v ∈ keysOf l := by
  simp only [containsKey, List.any_eq_true, beq_iff_eq, mem_keysOf]
  constructor
  · rintro ⟨p, hp, rfl⟩
    exact ⟨p.2, hp⟩
  · rintro ⟨b, hm⟩
    exact ⟨(v, b), hm, rfl⟩

theorem emplace_fresh {l : List (ℕ × Box)} {v : ℕ} {b : Box} (h : v ∉ keysOf l) :
    emplace l v b = l ++ [(v, b)] := by
  rw [emplace, if_neg]
  intro hc
  exact h (containsKey_iff.mp hc)

theorem mem_eraseKey {l : List (ℕ × Box)} {v : ℕ} {p : ℕ × Box} :
    p ∈ eraseKey l v ↔ p ∈ l ∧ p.1 ≠ v := by
  simp [eraseKey, List.mem_filter]

theorem eraseKey_sublist {l : List (ℕ × Box)} {v : ℕ} : (eraseKey l v).Sublist l :=
  List.filter_sublist _

theorem mem_keysOf_eraseKey {l : List (ℕ × Box)} {v u : ℕ} :
    u ∈ keysOf (eraseKey l v) ↔ u ∈ keysOf l ∧ u ≠ v := by
  rw [mem_keysOf]
  constructor
  · rintro ⟨b, hm⟩
    rw [mem_eraseKey] at hm
    exact ⟨mem_keysOf.mpr ⟨b, hm.1⟩, hm.2⟩
  · rintro ⟨hm, hne⟩
    obtain ⟨b, hb⟩ := mem_keysOf.mp hm
    exact ⟨b, mem_eraseKey.mpr ⟨hb, hne⟩⟩

theorem lookupKey_cons {k : ℕ} {bk : Box} {rest : List (ℕ × Box)} {v : ℕ} :
    lookupKey ((k, bk) :: rest) v = if k = v then some bk else lookupKey rest v := by
  by_cases h : k = v
  · subst h
    rw [lookupKey, List.find?_cons_of_pos _ (by simp), if_pos rfl]
    rfl
  · rw [lookupKey, List.find?_cons_of_neg _ (by simpa using h), if_neg h]
    rfl

theorem lookupKey_mem {l : List (ℕ × Box)} {v : ℕ} {b : Box}
    (h : lookupKey l v = some b) : (v, b) ∈ l := by
  induction l with
  | nil => cases h
  | cons p rest ih =>
    obtain ⟨k, bk⟩ := p
    rw [lookupKey_cons] at h
    by_cases hk : k = v
    · rw [if_pos hk] at h
      obtain rfl := Option.some.inj h
      subst hk
      exact List.mem_cons_self _ _
    · rw [if_neg hk] at h
      exact List.mem_cons_of_mem _ (ih h)

theorem lookupKey_eq_none {l : List (ℕ × Box)} {v : ℕ} (h : v ∉ keysOf l) :
    lookupKey l v = none := by
  rw [lookupKey, List.find?_eq_none.mpr, Option.map_none']
  intro p hp hb
  rw [beq_iff_eq] at hb
  apply h
  rw [mem_keysOf]
  refine ⟨p.2, ?_⟩
  rw [← hb]
  exact hp

theorem lookupKey_isSome {l : List (ℕ × Box)} {v : ℕ} (h : v ∈ keysOf l) :
    ∃ b, lookupKey l v = some b := by
  cases hf : lookupKey l v with
  | none =>
    induction l with
    | nil => cases h
    | cons p rest ih =>
      obtain ⟨k, bk⟩ := p
      rw [lookupKey_cons] at hf
      by_cases hk : k = v
      · rw [if_pos hk] at hf
        cases hf
      · rw [if_neg hk] at hf
        rw [keysOf, List.map_cons, List.mem_cons] at h
        rcases h with h | h
        · exact absurd h.symm hk
        · exact ih h hf
  | some b => exact ⟨b, rfl⟩

theorem lookupKey_of_mem_nodup {l : List (ℕ × Box)} {v : ℕ} {b : Box}
    (hnd : (keysOf l).Nodup) (hm : (v, b) ∈ l) : lookupKey l v = some b := by
  induction l with
  | nil => cases hm
  | cons p rest ih =>
    obtain ⟨k, bk⟩ := p
    rw [keysOf, List.map_cons, List.nodup_cons] at hnd
    rw [lookupKey_cons]
    rcases List.mem_cons.mp hm with h | h
    · rw [Prod.mk.injEq] at h
      obtain ⟨h1, h2⟩ := h
      subst h1
      subst h2
      rw [if_pos rfl]
    · by_cases hk : k = v
      · subst hk
        exact absurd (mem_keysOf.mpr ⟨b, h⟩) hnd.1
      · rw [if_neg hk]
        exact ih hnd.2 h

theorem mergeMap_disjoint {dest src : List (ℕ × Box)}
    (h : ∀ k ∈ keysOf src, k ∉ keysOf dest) : mergeMap dest src = dest ++ src := by
  rw [mergeMap]
  congr 1
  rw [List.filter_eq_self]
  intro p hp
  simp only [Bool.not_eq_true']
  rw [Bool.eq_false_iff]
  intro hc
  exact h p.1 (mem_keysOf.mpr ⟨p.2, hp⟩) (containsKey_iff.mp hc)

theorem mem_insertSet {l : List ℕ} {v u : ℕ} :
    u ∈ insertSet l v ↔ u = v ∨ u ∈ l := by
  rw [insertSet]
  split
  · rename_i hv
    constructor
    · exact fun h => Or.inr h
    · rintro (rfl | h)
      · exact hv
      · exact h
  · simp only [List.mem_append, List.mem_singleton]
    tauto

theorem insertSet_nodup {l : List ℕ} {v : ℕ} (h : l.Nodup) : (insertSet l v).Nodup := by
  rw [insertSet]
  split
  · exact h
  · rename_i hv
    rw [List.nodup_append]
    refine ⟨h, List.nodup_singleton v, ?_⟩
    intro a ha hb
    rw [List.mem_singleton] at hb
    subst hb
    exact hv ha

end Orthtree

namespace Orthtree

/-! Unfolding lemmas for the deep-contents observer. -/

@[simp] theorem vals_mk_none {a : Box} {l : ℕ} {bucket : List (ℕ × Box)} {c : ℕ} :
    Node.vals (.mk a l bucket c none) = bucket := rfl

@[simp] theorem vals_mk_some {a : Box} {l : ℕ} {bucket : List (ℕ × Box)} {c : ℕ} {s : BiSec} :
    Node.vals (.mk a l bucket c (some s)) = BiSec.vals s ++ bucket := rfl

@[simp] theorem vals_leaf {lo hi : Node} :
    BiSec.vals (.leaf lo hi) = Node.vals lo ++ Node.vals hi := rfl

@[simp] theorem vals_bin {lo hi : BiSec} :
    BiSec.vals (.bin lo hi) = BiSec.vals lo ++ BiSec.vals hi := rfl

/-! Nodup bookkeeping helpers. -/

theorem nodup_triple_left {A S B : List ℕ} (h : (A ++ (S ++ B)).Nodup) : (A ++ S).Nodup := by
  refine List.Nodup.sublist ?_ h
  exact List.Sublist.append_left (List.sublist_append_left S B) A

theorem nodup_triple_disj {A S B : List ℕ} (h : (A ++ (S ++ B)).Nodup) :
    ∀ k ∈ B, k ∉ A ++ S := by
  rw [List.nodup_append, List.nodup_append] at h
  obtain ⟨hA, ⟨hS, hB, hSB⟩, hAd⟩ := h
  intro k hk
  rw [List.mem_append]
  rintro (hkA | hkS)
  · exact hAd hkA (List.mem_append_right _ hk)
  · exact hSB hkS hk

theorem nodup_append_swap {A B : List ℕ} (h : (A ++ B).Nodup) : (B ++ A).Nodup :=
  (List.perm_append_comm.nodup_iff).mpr h

/-! `GatherAllValuesDeep` collects exactly the subtree contents when the
keys are duplicate-free. -/

mutual
theorem nodeGather_eq : ∀ (n : Node) (acc : List (ℕ × Box)),
    (keysOf (acc ++ Node.vals n)).Nodup → Node.Gather n acc = acc ++ Node.vals n
  | .mk a l bucket c none, acc, h => by
    rw [vals_mk_none] at h
    show mergeMap acc bucket = acc ++ bucket
    apply mergeMap_disjoint
    intro k hk hka
    rw [keysOf_append, List.nodup_append] at h
    exact h.2.2 hka hk
  | .mk a l bucket c (some s), acc, h => by
    rw [vals_mk_some] at h
    show mergeMap (BiSec.Gather s acc) bucket = acc ++ (BiSec.vals s ++ bucket)
    rw [keysOf_append, keysOf_append] at h
    have hsub : (keysOf (acc ++ BiSec.vals s)).Nodup := by
      rw [keysOf_append]
      exact nodup_triple_left h
    rw [bisecGather_eq s acc hsub]
    rw [mergeMap_disjoint, List.append_assoc]
    intro k hk hka
    rw [keysOf_append] at hka
    exact nodup_triple_disj h k hk hka
theorem bisecGather_eq : ∀ (s : BiSec) (acc : List (ℕ × Box)),
    (keysOf (acc ++ BiSec.vals s)).Nodup → BiSec.Gather s acc = acc ++ BiSec.vals s
  | .leaf lo hi, acc, h => by
    rw [vals_leaf] at h
    show Node.Gather hi (Node.Gather lo acc) = acc ++ (Node.vals lo ++ Node.vals hi)
    rw [keysOf_append, keysOf_append] at h
    have h1 : (keysOf (acc ++ Node.vals lo)).Nodup := by
      rw [keysOf_append]
      exact nodup_triple_left h
    rw [nodeGather_eq lo acc h1]
    have h2 : (keysOf ((acc ++ Node.vals lo) ++ Node.vals hi)).Nodup := by
      rw [keysOf_append, keysOf_append, List.append_assoc]
      exact h
    rw [nodeGather_eq hi (acc ++ Node.vals lo) h2, List.append_assoc]
  | .bin lo hi, acc, h => by
    rw [vals_bin] at h
    show BiSec.Gather hi (BiSec.Gather lo acc) = acc ++ (BiSec.vals lo ++ BiSec.vals hi)
    rw [keysOf_append, keysOf_append] at h
    have h1 : (keysOf (acc ++ BiSec.vals lo)).Nodup := by
      rw [keysOf_append]
      exact nodup_triple_left h
    rw [bisecGather_eq lo acc h1]
    have h2 : (keysOf ((acc ++ BiSec.vals lo) ++ BiSec.vals hi)).Nodup := by
      rw [keysOf_append, keysOf_append, List.append_assoc]
      exact h
    rw [bisecGather_eq hi (acc ++ BiSec.vals lo) h2, List.append_assoc]
end

/-! Characterisation of `FindIntersected(box)`: an unpruned scan of the
whole subtree. -/

theorem bucketScan_nil {D : ℕ} {b : Box} {acc : List ℕ} :
    bucketScan D b [] acc = acc := rfl

theorem bucketScan_cons {D : ℕ} {b : Box} {p : ℕ × Box} {rest : List (ℕ × Box)} {acc : List ℕ} :
    bucketScan D b (p :: rest) acc =
      bucketScan D b rest (if Box.Intersect D b p.2 then insertSet acc p.1 else acc) := rfl

theorem bucketScan_mem {D : ℕ} {b : Box} :
    ∀ (bucket : List (ℕ × Box)) (acc : List ℕ) (u : ℕ),
      u ∈ bucketScan D b bucket acc ↔
        u ∈ acc ∨ ∃ bu, (u, bu) ∈ bucket ∧ Box.Intersect D b bu = true := by
  intro bucket
  induction bucket with
  | nil => simp [bucketScan_nil]
  | cons p rest ih =>
    intro acc u
    rw [bucketScan_cons, ih]
    by_cases hI : Box.Intersect D b p.2 = true
    · rw [if_pos hI, mem_insertSet]
      constructor
      · rintro ((rfl | hu) | ⟨bu, hbu, hI2⟩)
        · exact Or.inr ⟨p.2, List.mem_cons_self _ _, hI⟩
        · exact Or.inl hu
        · exact Or.inr ⟨bu, List.mem_cons_of_mem _ hbu, hI2⟩
      · rintro (hu | ⟨bu, hbu, hI2⟩)
        · exact Or.inl (Or.inr hu)
        · rcases List.mem_cons.mp hbu with heq | hbu2
          · obtain ⟨h1, h2⟩ := Prod.mk.injEq .. ▸ heq
            exact Or.inl (Or.inl h1)
          · exact Or.inr ⟨bu, hbu2, hI2⟩
    · rw [if_neg hI]
      constructor
      · rintro (hu | ⟨bu, hbu, hI2⟩)
        · exact Or.inl hu
        · exact Or.inr ⟨bu, List.mem_cons_of_mem _ hbu, hI2⟩
      · rintro (hu | ⟨bu, hbu, hI2⟩)
        · exact Or.inl hu
        · rcases List.mem_cons.mp hbu with heq | hbu2
          · obtain ⟨h1, h2⟩ := Prod.mk.injEq .. ▸ heq
            subst h1
            subst h2
            exact absurd hI2 hI
          · exact Or.inr ⟨bu, hbu2, hI2⟩

theorem bucketScan_nodup {D : ℕ} {b : Box} :
    ∀ (bucket : List (ℕ × Box)) (acc : List ℕ), acc.Nodup → (bucketScan D b bucket acc).Nodup := by
  intro bucket
  induction bucket with
  | nil => exact fun acc h => h
  | cons p rest ih =>
    intro acc h
    rw [bucketScan_cons]
    apply ih
    split
    · exact insertSet_nodup h
    · exact h

mutual
theorem nodeFindBox_mem {D : ℕ} : ∀ (n : Node) (b : Box) (acc : List ℕ) (u : ℕ),
    u ∈ Node.FindBox D n b acc ↔
      u ∈ acc ∨ ∃ bu, (u, bu) ∈ Node.vals n ∧ Box.Intersect D b bu = true
  | .mk a l bucket c none, b, acc, u => by
    show u ∈ bucketScan D b bucket acc ↔ _
    rw [bucketScan_mem, vals_mk_none]
  | .mk a l bucket c (some s), b, acc, u => by
    show u ∈ BiSec.FindBox D s b (bucketScan D b bucket acc) ↔ _
    rw [bisecFindBox_mem s b _ u, bucketScan_mem, vals_mk_some]
    constructor
    · rintro ((hu | ⟨bu, hm, hI⟩) | ⟨bu, hm, hI⟩)
      · exact Or.inl hu
      · exact Or.inr ⟨bu, List.mem_append_right _ hm, hI⟩
      · exact Or.inr ⟨bu, List.mem_append_left _ hm, hI⟩
    · rintro (hu | ⟨bu, hm, hI⟩)
      · exact Or.inl (Or.inl hu)
      · rcases List.mem_append.mp hm with hm | hm
        · exact Or.inr ⟨bu, hm, hI⟩
        · exact Or.inl (Or.inr ⟨bu, hm, hI⟩)
theorem bisecFindBox_mem {D : ℕ} : ∀ (s : BiSec) (b : Box) (acc : List ℕ) (u : ℕ),
    u ∈ BiSec.FindBox D s b acc ↔
      u ∈ acc ∨ ∃ bu, (u, bu) ∈ BiSec.vals s ∧ Box.Intersect D b bu = true
  | .leaf lo hi, b, acc, u => by
    show u ∈ Node.FindBox D hi b (Node.FindBox D lo b acc) ↔ _
    rw [nodeFindBox_mem hi b _ u, nodeFindBox_mem lo b acc u, vals_leaf]
    constructor
    · rintro ((hu | ⟨bu, hm, hI⟩) | ⟨bu, hm, hI⟩)
      · exact Or.inl hu
      · exact Or.inr ⟨bu, List.mem_append_left _ hm, hI⟩
      · exact Or.inr ⟨bu, List.mem_append_right _ hm, hI⟩
    · rintro (hu | ⟨bu, hm, hI⟩)
      · exact Or.inl (Or.inl hu)
      · rcases List.mem_append.mp hm with hm | hm
        · exact Or.inl (Or.inr ⟨bu, hm, hI⟩)
        · exact Or.inr ⟨bu, hm, hI⟩
  | .bin lo hi, b, acc, u => by
    show u ∈ BiSec.FindBox D hi b (BiSec.FindBox D lo b acc) ↔ _
    rw [bisecFindBox_mem hi b _ u, bisecFindBox_mem lo b acc u, vals_bin]
    constructor
    · rintro ((hu | ⟨bu, hm, hI⟩) | ⟨bu, hm, hI⟩)
      · exact Or.inl hu
      · exact Or.inr ⟨bu, List.mem_append_left _ hm, hI⟩
      · exact Or.inr ⟨bu, List.mem_append_right _ hm, hI⟩
    · rintro (hu | ⟨bu, hm, hI⟩)
      · exact Or.inl (Or.inl hu)
      · rcases List.mem_append.mp hm with hm | hm
        · exact Or.inl (Or.inr ⟨bu, hm, hI⟩)
        · exact Or.inr ⟨bu, hm, hI⟩
end

mutual
theorem nodeFindBox_nodup {D : ℕ} : ∀ (n : Node) (b : Box) (acc : List ℕ),
    acc.Nodup → (Node.FindBox D n b acc).Nodup
  | .mk a l bucket c none, b, acc, h => bucketScan_nodup bucket acc h
  | .mk a l bucket c (some s), b, acc, h =>
    bisecFindBox_nodup s b _ (bucketScan_nodup bucket acc h)
theorem bisecFindBox_nodup {D : ℕ} : ∀ (s : BiSec) (b : Box) (acc : List ℕ),
    acc.Nodup → (BiSec.FindBox D s b acc).Nodup
  | .leaf lo hi, b, acc, h => nodeFindBox_nodup hi b _ (nodeFindBox_nodup lo b acc h)
  | .bin lo hi, b, acc, h => bisecFindBox_nodup hi b _ (bisecFindBox_nodup lo b acc h)
end

end Orthtree

namespace Orthtree

/-! The structural invariant of exclusive-mode trees.

`NodeInv` records, per node: the area is well-formed, all bucket boxes are
well-formed, `m_values_count` equals the number of values in the subtree,
and the subtree keys are duplicate-free.  `SubInv` additionally records, per
bisection level on its axis, that every value stored below the low section
lies strictly below the level's midpoint and every value below the high
section strictly above (the placement discipline enforced by
`CanFallDeeper` in exclusive mode). -/

mutual
def NodeInv (c : Cfg) : Node → Prop
  | .mk area _ bucket cnt none =>
    Box.WFb c.D area = true ∧ (∀ p ∈ bucket, Box.WFb c.D p.2 = true) ∧
    cnt = bucket.length ∧ (keysOf bucket).Nodup
  | .mk area _ bucket cnt (some s) =>
    Box.WFb c.D area = true ∧ (∀ p ∈ bucket, Box.WFb c.D p.2 = true) ∧
    cnt = (BiSec.vals s).length + bucket.length ∧
    (keysOf (BiSec.vals s ++ bucket)).Nodup ∧
    SubInv c s area c.D
def SubInv (c : Cfg) : BiSec → Box → ℕ → Prop
  | .leaf lo hi, area, _ =>
    (∀ p ∈ Node.vals lo, p.2.pntMax 0 < Box.mid area 0) ∧
    (∀ p ∈ Node.vals hi, Box.mid area 0 < p.2.pntMin 0) ∧
    NodeInv c lo ∧ NodeInv c hi
  | .bin lo hi, area, X =>
    2 ≤ X ∧ X ≤ c.D ∧
    (∀ p ∈ BiSec.vals lo, p.2.pntMax (X-1) < Box.mid area (X-1)) ∧
    (∀ p ∈ BiSec.vals hi, Box.mid area (X-1) < p.2.pntMin (X-1)) ∧
    SubInv c lo (loBox area (X-1)) (X-1) ∧ SubInv c hi (hiBox area (X-1)) (X-1)
end

/-- The tree-level invariant: the root satisfies `NodeInv` and the registry
holds exactly the values stored in the node tree (same boxes, same
multiplicities). -/
def TreeInv (c : Cfg) (t : Tree) : Prop :=
  NodeInv c t.root ∧ (Node.vals t.root).Perm t.allValues

/-- Trees reachable from a fresh tree by `Add` and `Del` operations that
satisfy the documented preconditions (fresh value on `Add`; `Del` succeeds
only on registered values by construction).  Boxes are well-formed by
construction in the source, which is recorded as a hypothesis. -/
inductive Reach (c : Cfg) : Tree → Prop where
  | init (area : Box) (h : Box.WFb c.D area = true) : Reach c (Tree.new area)
  | add {t t1 : Tree} {v : ℕ} {b : Box} {fuel : ℕ} (hr : Reach c t)
      (hv : Tree.Contains t v = false) (hb : Box.WFb c.D b = true)
      (hstep : Tree.Add c fuel t v b = some t1) : Reach c t1
  | del {t t1 : Tree} {v : ℕ} (hr : Reach c t) (hstep : Tree.Del c t v = some t1) : Reach c t1

theorem nodeInv_nodup {c : Cfg} {n : Node} (h : NodeInv c n) :
    (keysOf (Node.vals n)).Nodup := by
  obtain ⟨area, lvl, bucket, cnt, sub⟩ := n
  cases sub with
  | none =>
    rw [NodeInv] at h
    rw [vals_mk_none]
    exact h.2.2.2
  | some s =>
    rw [NodeInv] at h
    rw [vals_mk_some]
    exact h.2.2.2.1

theorem nodeInv_area_wf {c : Cfg} {n : Node} (h : NodeInv c n) :
    Box.WFb c.D n.area = true := by
  obtain ⟨area, lvl, bucket, cnt, sub⟩ := n
  cases sub with
  | none => rw [NodeInv] at h; exact h.1
  | some s => rw [NodeInv] at h; exact h.1

theorem nodeInv_cnt {c : Cfg} {n : Node} (h : NodeInv c n) :
    n.cnt = (Node.vals n).length := by
  obtain ⟨area, lvl, bucket, cnt, sub⟩ := n
  cases sub with
  | none => rw [NodeInv] at h; simpa [Node.cnt] using h.2.2.1
  | some s =>
    rw [NodeInv] at h
    simp only [Node.cnt, vals_mk_some, List.length_append]
    rw [h.2.2.1]

mutual
theorem nodeVals_wf {c : Cfg} : ∀ {n : Node}, NodeInv c n →
    ∀ p ∈ Node.vals n, Box.WFb c.D p.2 = true
  | .mk area lvl bucket cnt none, h, p, hp => by
    rw [NodeInv] at h
    rw [vals_mk_none] at hp
    exact h.2.1 p hp
  | .mk area lvl bucket cnt (some s), h, p, hp => by
    rw [NodeInv] at h
    rw [vals_mk_some, List.mem_append] at hp
    rcases hp with hp | hp
    · exact bisecVals_wf h.2.2.2.2 p hp
    · exact h.2.1 p hp
theorem bisecVals_wf {c : Cfg} : ∀ {s : BiSec} {area : Box} {X : ℕ}, SubInv c s area X →
    ∀ p ∈ BiSec.vals s, Box.WFb c.D p.2 = true
  | .leaf lo hi, area, X, h, p, hp => by
    rw [SubInv] at h
    rw [vals_leaf, List.mem_append] at hp
    rcases hp with hp | hp
    · exact nodeVals_wf h.2.2.1 p hp
    · exact nodeVals_wf h.2.2.2 p hp
  | .bin lo hi, area, X, h, p, hp => by
    rw [SubInv] at h
    rw [vals_bin, List.mem_append] at hp
    rcases hp with hp | hp
    · exact bisecVals_wf h.2.2.2.2.1 p hp
    · exact bisecVals_wf h.2.2.2.2.2 p hp
end

end Orthtree

namespace Orthtree

/-! Fresh subdivisions. -/

theorem mkBiSec_vals : ∀ (X : ℕ) (area : Box) (lvl : ℕ), BiSec.vals (mkBiSec X area lvl) = []
  | 0, area, lvl => rfl
  | 1, area, lvl => rfl
  | X+2, area, lvl => by
    rw [mkBiSec, vals_bin, mkBiSec_vals (X+1), mkBiSec_vals (X+1), List.append_nil]

theorem mkBiSec_subInv {c : Cfg} : ∀ (X : ℕ) (area : Box) (lvl : ℕ), 1 ≤ X → X ≤ c.D →
    Box.WFb c.D area = true → SubInv c (mkBiSec X area lvl) area X
  | 0, area, lvl, h1, _, _ => absurd h1 (by omega)
  | 1, area, lvl, _, _, hwf => by
    rw [mkBiSec, SubInv]
    refine ⟨?_, ?_, ?_, ?_⟩
    · intro p hp
      simp [Node.mkEmpty] at hp
    · intro p hp
      simp [Node.mkEmpty] at hp
    · rw [Node.mkEmpty, NodeInv]
      exact ⟨loBox_wf hwf, by simp, rfl, List.nodup_nil⟩
    · rw [Node.mkEmpty, NodeInv]
      exact ⟨hiBox_wf hwf, by simp, rfl, List.nodup_nil⟩
  | X+2, area, lvl, _, hD, hwf => by
    rw [mkBiSec, SubInv]
    refine ⟨by omega, hD, ?_, ?_, ?_, ?_⟩
    · intro p hp
      rw [mkBiSec_vals] at hp
      cases hp
    · intro p hp
      rw [mkBiSec_vals] at hp
      cases hp
    · exact mkBiSec_subInv (X+1) _ lvl (by omega) (by omega) (loBox_wf hwf)
    · exact mkBiSec_subInv (X+1) _ lvl (by omega) (by omega) (hiBox_wf hwf)

/-! The per-axis routing facts guaranteed by exclusive-mode
`CanFallDeeper`. -/

/-- The per-axis consequences of `ContainInOrthant(A, b)` restricted to the
first `X` axes: strictly inside and not straddling the midpoint. -/
def RouteGuard (A b : Box) (X : ℕ) : Prop :=
  ∀ i < X, A.pntMin i < b.pntMin i ∧ b.pntMax i < A.pntMax i ∧
    ¬(b.pntMin i ≤ Box.mid A i ∧ Box.mid A i ≤ b.pntMax i)

theorem routeGuard_of_canFall {c : Cfg} (hsh : c.SH = false) {A b : Box}
    (h : canFallDeeper c A b = true) : RouteGuard A b c.D := by
  rw [canFallDeeper, hsh] at h
  simp only [Bool.false_eq_true, if_false] at h
  intro i hi
  obtain ⟨h1, h2, h3⟩ := cio_iff.mp h i hi
  exact ⟨h2, h1, h3⟩

theorem routeGuard_mono {A b : Box} {X Y : ℕ} (hle : Y ≤ X) (h : RouteGuard A b X) :
    RouteGuard A b Y := fun i hi => h i (lt_of_lt_of_le hi hle)

/-- Agreement of two boxes on the first `X` axes: as a bisection descends
through the axes `X-1, X-2, …`, the current (already bisected) area still
agrees with the owning node's area on all lower axes. -/
def AgreeUpTo (A B : Box) (X : ℕ) : Prop :=
  ∀ i < X, A.pntMin i = B.pntMin i ∧ A.pntMax i = B.pntMax i

theorem agreeUpTo_refl {A : Box} {X : ℕ} : AgreeUpTo A A X := fun _ _ => ⟨rfl, rfl⟩

theorem agreeUpTo_mid {A B : Box} {X : ℕ} (h : AgreeUpTo A B X) {ax : ℕ} (hax : ax < X) :
    Box.mid B ax = (A.pntMax ax + A.pntMin ax) / 2 := by
  obtain ⟨h1, h2⟩ := h ax hax
  rw [Box.mid, ← h1, ← h2]
  ring

theorem agreeUpTo_loBox {c : Cfg} {A curA : Box} {X : ℕ} (h : AgreeUpTo A curA X)
    (hwf : Box.WFb c.D curA = true) (hXD : X ≤ c.D) {ax : ℕ} (hax : ax = X - 1) (hX : 1 ≤ X) :
    AgreeUpTo A (loBox curA ax) (X - 1) := by
  intro i hi
  have hiD : i < c.D := by omega
  have hne : i ≠ ax := by omega
  obtain ⟨h1, h2⟩ := h i (by omega)
  rw [loBox_min hwf hiD, loBox_max_ne hwf hiD hne]
  exact ⟨h1, h2⟩

theorem agreeUpTo_hiBox {c : Cfg} {A curA : Box} {X : ℕ} (h : AgreeUpTo A curA X)
    (hwf : Box.WFb c.D curA = true) (hXD : X ≤ c.D) {ax : ℕ} (hax : ax = X - 1) (hX : 1 ≤ X) :
    AgreeUpTo A (hiBox curA ax) (X - 1) := by
  intro i hi
  have hiD : i < c.D := by omega
  have hne : i ≠ ax := by omega
  obtain ⟨h1, h2⟩ := h i (by omega)
  rw [hiBox_min_ne hwf hiD hne, hiBox_max hwf hiD]
  exact ⟨h1, h2⟩

/-- In exclusive mode, a guarded box matches exactly one of the two routing
tests of `BiSection::Add`/`Del` on each axis: either it is entirely below
the midpoint (low side only) or entirely above (high side only). -/
theorem route_dichotomy {A b : Box} {ax : ℕ}
    (hstr : ¬(b.pntMin ax ≤ Box.mid A ax ∧ Box.mid A ax ≤ b.pntMax ax))
    (hwf : b.pntMin ax ≤ b.pntMax ax) :
    (b.pntMin ax ≤ (A.pntMax ax + A.pntMin ax) / 2 ∧
       b.pntMax ax < (A.pntMax ax + A.pntMin ax) / 2) ∨
    ((A.pntMax ax + A.pntMin ax) / 2 < b.pntMin ax ∧
       (A.pntMax ax + A.pntMin ax) / 2 ≤ b.pntMax ax) := by
  have hm : (A.pntMax ax + A.pntMin ax) / 2 = Box.mid A ax := by
    rw [Box.mid]
    ring
  rw [hm]
  by_cases hlo : b.pntMin ax ≤ Box.mid A ax
  · left
    refine ⟨hlo, ?_⟩
    by_contra hhi
    rw [not_lt] at hhi
    exact hstr ⟨hlo, hhi⟩
  · right
    rw [not_le] at hlo
    exact ⟨hlo, le_trans (le_of_lt hlo) hwf⟩

/-! Permutation bookkeeping. -/

theorem keysOf_perm {l1 l2 : List (ℕ × Box)} (h : l1.Perm l2) :
    (keysOf l1).Perm (keysOf l2) := h.map _

theorem nodup_of_perm_keys {l1 l2 : List (ℕ × Box)} (h : l1.Perm l2)
    (hnd : (keysOf l1).Nodup) : (keysOf l2).Nodup :=
  ((keysOf_perm h).nodup_iff).mp hnd

theorem keys_snoc_nodup {L : List ℕ} {v : ℕ} (h : L.Nodup) (hv : v ∉ L) :
    (L ++ [v]).Nodup := by
  rw [List.nodup_append]
  refine ⟨h, List.nodup_singleton v, ?_⟩
  intro a ha hb
  rw [List.mem_singleton] at hb
  subst hb
  exact hv ha

end Orthtree


namespace Orthtree

@[simp] theorem keysOf_cons {p : ℕ × Box} {l : List (ℕ × Box)} :
    keysOf (p :: l) = p.1 :: keysOf l := rfl

@[simp] theorem keysOf_nil : keysOf [] = [] := rfl

/-- Exclusive-mode preservation statement for `Node::Add`: the invariant is
kept, the subtree contents gain exactly the new entry, and the node's area
is unchanged. -/
def NodeAddOK (c : Cfg) (fuel : ℕ) : Prop :=
  ∀ n v b n1, NodeInv c n → Box.WFb c.D b = true → v ∉ keysOf (Node.vals n) →
    Node.Add c fuel n v b = some n1 →
    NodeInv c n1 ∧ (Node.vals n1).Perm ((v, b) :: Node.vals n) ∧ Node.area n1 = Node.area n

/-- Exclusive-mode preservation statement for `BiSection::Add`. -/
def BisecAddOK (c : Cfg) (fuel : ℕ) : Prop :=
  ∀ s X v b A curA s1, SubInv c s curA X → 1 ≤ X → X ≤ c.D →
    Box.WFb c.D curA = true → AgreeUpTo A curA X → Box.WFb c.D b = true →
    RouteGuard A b X → v ∉ keysOf (BiSec.vals s) →
    BiSec.AddVal c fuel s X v b A = some s1 →
    SubInv c s1 curA X ∧ (BiSec.vals s1).Perm ((v, b) :: BiSec.vals s)

/-- Exclusive-mode preservation statement for the migration loop. -/
def ListAddOK (c : Cfg) (fuel : ℕ) : Prop :=
  ∀ s entries A s1, SubInv c s A c.D → Box.WFb c.D A = true →
    (∀ p ∈ entries, Box.WFb c.D p.2 = true ∧ canFallDeeper c A p.2 = true) →
    (keysOf entries).Nodup →
    (∀ k ∈ keysOf entries, k ∉ keysOf (BiSec.vals s)) →
    BiSec.AddList c fuel s entries A = some s1 →
    SubInv c s1 A c.D ∧ (BiSec.vals s1).Perm (entries ++ BiSec.vals s)

theorem addOK_all (c : Cfg) (hsh : c.SH = false) (hD : 0 < c.D) :
    ∀ fuel, NodeAddOK c fuel ∧ BisecAddOK c fuel ∧ ListAddOK c fuel := by
  intro fuel
  induction fuel with
  | zero =>
    refine ⟨?_, ?_, ?_⟩
    · intro n v b n1 _ _ _ hstep
      cases hstep
    · intro s X v b A curA s1 _ _ _ _ _ _ _ _ hstep
      cases hstep
    · intro s entries A s1 _ _ _ _ _ hstep
      cases hstep
  | succ fuel ih =>
    obtain ⟨ihN, ihB, ihL⟩ := ih
    refine ⟨?_, ?_, ?_⟩
    · -- NodeAddOK (fuel+1)
      rintro ⟨area, lvl, bucket, cnt, sub⟩ v b n1 hInv hwb hfresh hstep
      cases sub with
      | none =>
        rw [NodeInv] at hInv
        obtain ⟨hwfA, hwfB, hcnt, hnd⟩ := hInv
        rw [vals_mk_none] at hfresh
        simp only [Node.Add] at hstep
        by_cases hcond : (!(canFallDeeper c area b) || decide (bucket.length < c.G)) = true
        · rw [if_pos hcond] at hstep
          obtain rfl := Option.some.inj hstep
          rw [emplace_fresh hfresh]
          refine ⟨?_, ?_, rfl⟩
          · rw [NodeInv]
            refine ⟨hwfA, ?_, ?_, ?_⟩
            · intro p hp
              rcases List.mem_append.mp hp with hp | hp
              · exact hwfB p hp
              · rw [List.mem_singleton] at hp
                subst hp
                exact hwb
            · rw [List.length_append, hcnt]
              rfl
            · rw [keysOf_append]
              exact keys_snoc_nodup hnd hfresh
          · rw [vals_mk_none, vals_mk_none]
            exact List.perm_append_singleton _ _
        · rw [if_neg hcond] at hstep
          have hcf : canFallDeeper c area b = true := by
            by_contra hc
            rw [Bool.not_eq_true] at hc
            apply hcond
            rw [hc]
            rfl
          cases hAL : BiSec.AddList c fuel (mkBiSec c.D area (lvl+1))
              (bucket.filter fun p => canFallDeeper c area p.2) area with
          | none =>
            rw [hAL, Option.none_bind] at hstep
            cases hstep
          | some s1 =>
            rw [hAL, Option.some_bind] at hstep
            cases hAV : BiSec.AddVal c fuel s1 c.D v b area with
            | none =>
              rw [hAV, Option.map_none'] at hstep
              cases hstep
            | some s2 =>
              rw [hAV, Option.map_some'] at hstep
              obtain rfl := Option.some.inj hstep
              have hS0 : SubInv c (mkBiSec c.D area (lvl+1)) area c.D :=
                mkBiSec_subInv c.D area (lvl+1) hD le_rfl hwfA
              have hmovnd : (keysOf (bucket.filter fun p => canFallDeeper c area p.2)).Nodup :=
                List.Nodup.sublist (List.Sublist.map _ (List.filter_sublist _)) hnd
              obtain ⟨hSI1, hperm1⟩ := ihL (mkBiSec c.D area (lvl+1))
                  (bucket.filter fun p => canFallDeeper c area p.2) area s1 hS0 hwfA
                  (by
                    intro p hp
                    rw [List.mem_filter] at hp
                    exact ⟨hwfB p hp.1, hp.2⟩)
                  hmovnd
                  (by
                    intro k hk hk2
                    rw [mkBiSec_vals] at hk2
                    cases hk2)
                  hAL
              rw [mkBiSec_vals, List.append_nil] at hperm1
              obtain ⟨hSI2, hperm2⟩ := ihB s1 c.D v b area area s2 hSI1 hD le_rfl hwfA
                  agreeUpTo_refl hwb (routeGuard_of_canFall hsh hcf)
                  (by
                    intro hv
                    rcases mem_keysOf.mp hv with ⟨bu, hbu⟩
                    have hmm := hperm1.mem_iff.mp hbu
                    rw [List.mem_filter] at hmm
                    exact hfresh (mem_keysOf.mpr ⟨bu, hmm.1⟩))
                  hAV
              have hpart : ((bucket.filter fun p => canFallDeeper c area p.2) ++
                  (bucket.filter fun p => !(canFallDeeper c area p.2))).Perm bucket :=
                List.filter_append_perm _ bucket
              have hbig : (BiSec.vals s2 ++
                  (bucket.filter fun p => !(canFallDeeper c area p.2))).Perm ((v, b) :: bucket) := by
                refine (List.Perm.append_right _ hperm2).trans ?_
                rw [List.cons_append]
                exact List.Perm.cons _ ((List.Perm.append_right _ hperm1).trans hpart)
              refine ⟨?_, ?_, rfl⟩
              · rw [NodeInv]
                refine ⟨hwfA, ?_, ?_, ?_, hSI2⟩
                · intro p hp
                  rw [List.mem_filter] at hp
                  exact hwfB p hp.1
                · have e1 := hperm2.length_eq
                  have e2 := hperm1.length_eq
                  have e3 := hpart.length_eq
                  rw [List.length_cons] at e1
                  rw [List.length_append] at e3
                  omega
                · refine nodup_of_perm_keys hbig.symm ?_
                  rw [keysOf_cons]
                  exact List.nodup_cons.mpr ⟨hfresh, hnd⟩
              · rw [vals_mk_some, vals_mk_none]
                exact hbig
      | some s =>
        rw [NodeInv] at hInv
        obtain ⟨hwfA, hwfB, hcnt, hnd, hSI⟩ := hInv
        rw [vals_mk_some] at hfresh
        simp only [Node.Add] at hstep
        by_cases hcf : canFallDeeper c area b = true
        · rw [if_neg (by simp [hcf])] at hstep
          cases hAV : BiSec.AddVal c fuel s c.D v b area with
          | none =>
            rw [hAV, Option.map_none'] at hstep
            cases hstep
          | some s1 =>
            rw [hAV, Option.map_some'] at hstep
            obtain rfl := Option.some.inj hstep
            obtain ⟨hSI1, hperm1⟩ := ihB s c.D v b area area s1 hSI hD le_rfl hwfA
                agreeUpTo_refl hwb (routeGuard_of_canFall hsh hcf)
                (by
                  intro hv
                  apply hfresh
                  rw [keysOf_append, List.mem_append]
                  exact Or.inl hv)
                hAV
            have hbig : (BiSec.vals s1 ++ bucket).Perm ((v, b) :: (BiSec.vals s ++ bucket)) := by
              refine (List.Perm.append_right _ hperm1).trans ?_
              rw [List.cons_append]
            refine ⟨?_, ?_, rfl⟩
            · rw [NodeInv]
              refine ⟨hwfA, hwfB, ?_, ?_, hSI1⟩
              · have e1 := hperm1.length_eq
                rw [List.length_cons] at e1
                omega
              · refine nodup_of_perm_keys hbig.symm ?_
                rw [keysOf_cons]
                exact List.nodup_cons.mpr ⟨hfresh, hnd⟩
            · rw [vals_mk_some, vals_mk_some]
              exact hbig
        · rw [if_pos (by
              rw [Bool.not_eq_true] at hcf
              rw [hcf]
              rfl)] at hstep
          obtain rfl := Option.some.inj hstep
          have hfreshb : v ∉ keysOf bucket := by
            intro hv
            apply hfresh
            rw [keysOf_append, List.mem_append]
            exact Or.inr hv
          rw [emplace_fresh hfreshb]
          refine ⟨?_, ?_, rfl⟩
          · rw [NodeInv]
            refine ⟨hwfA, ?_, ?_, ?_, hSI⟩
            · intro p hp
              rcases List.mem_append.mp hp with hp | hp
              · exact hwfB p hp
              · rw [List.mem_singleton] at hp
                subst hp
                exact hwb
            · rw [List.length_append, hcnt]
              rfl
            · rw [keysOf_append, keysOf_append, ← List.append_assoc]
              rw [keysOf_append] at hnd
              refine keys_snoc_nodup hnd ?_
              rw [← keysOf_append]
              exact hfresh
          · rw [vals_mk_some, vals_mk_some, ← List.append_assoc]
            exact List.perm_append_singleton _ _
    · -- BisecAddOK (fuel+1)
      rintro s X v b A curA s1 hSI hX hXD hwfcur hagree hwb hguard hfresh hstep
      cases s with
      | leaf lo hi =>
        simp only [BiSec.AddVal] at hstep
        rw [SubInv] at hSI
        obtain ⟨hcLo, hcHi, hIlo, hIhi⟩ := hSI
        obtain ⟨hg1, hg2, hg3⟩ := hguard 0 (by omega)
        have hwb0 : b.pntMin 0 ≤ b.pntMax 0 := wfb_iff.mp hwb 0 hD
        have hmidC : Box.mid curA 0 = (A.pntMax 0 + A.pntMin 0) / 2 :=
          agreeUpTo_mid hagree (by omega)
        rcases route_dichotomy hg3 hwb0 with ⟨hlo, hhiF⟩ | ⟨hloF, hhi⟩
        · rw [if_neg (not_le.mpr hhiF), Option.some_bind, if_pos hlo] at hstep
          cases hNA : Node.Add c fuel lo v b with
          | none =>
            rw [hNA, Option.map_none'] at hstep
            cases hstep
          | some lo1 =>
            rw [hNA, Option.map_some'] at hstep
            obtain rfl := Option.some.inj hstep
            obtain ⟨hIlo1, hperml, _⟩ := ihN lo v b lo1 hIlo hwb
                (by
                  intro hv
                  apply hfresh
                  rw [vals_leaf, keysOf_append, List.mem_append]
                  exact Or.inl hv)
                hNA
            refine ⟨?_, ?_⟩
            · rw [SubInv]
              refine ⟨?_, hcHi, hIlo1, hIhi⟩
              intro p hp
              rcases List.mem_cons.mp (hperml.mem_iff.mp hp) with hp | hp
              · obtain rfl : p = (v, b) := hp
                rw [hmidC]
                exact hhiF
              · exact hcLo p hp
            · rw [vals_leaf, vals_leaf]
              refine (List.Perm.append_right _ hperml).trans ?_
              rw [List.cons_append]
        · rw [if_pos hhi] at hstep
          cases hNA : Node.Add c fuel hi v b with
          | none =>
            rw [hNA, Option.none_bind] at hstep
            cases hstep
          | some hi1 =>
            rw [hNA, Option.some_bind, if_neg (not_le.mpr hloF), Option.map_some'] at hstep
            obtain rfl := Option.some.inj hstep
            obtain ⟨hIhi1, hpermh, _⟩ := ihN hi v b hi1 hIhi hwb
                (by
                  intro hv
                  apply hfresh
                  rw [vals_leaf, keysOf_append, List.mem_append]
                  exact Or.inr hv)
                hNA
            refine ⟨?_, ?_⟩
            · rw [SubInv]
              refine ⟨hcLo, ?_, hIlo, hIhi1⟩
              intro p hp
              rcases List.mem_cons.mp (hpermh.mem_iff.mp hp) with hp | hp
              · obtain rfl : p = (v, b) := hp
                rw [hmidC]
                exact hloF
              · exact hcHi p hp
            · rw [vals_leaf, vals_leaf]
              refine (List.Perm.append_left _ hpermh).trans ?_
              exact List.perm_middle
      | bin lo hi =>
        simp only [BiSec.AddVal] at hstep
        rw [SubInv] at hSI
        obtain ⟨hX2, hXD2, hcLo, hcHi, hSlo, hShi⟩ := hSI
        obtain ⟨hg1, hg2, hg3⟩ := hguard (X-1) (by omega)
        have haxD : X - 1 < c.D := by omega
        have hwbx : b.pntMin (X-1) ≤ b.pntMax (X-1) := wfb_iff.mp hwb (X-1) haxD
        have hmidC : Box.mid curA (X-1) = (A.pntMax (X-1) + A.pntMin (X-1)) / 2 :=
          agreeUpTo_mid hagree (by omega)
        rcases route_dichotomy hg3 hwbx with ⟨hlo, hhiF⟩ | ⟨hloF, hhi⟩
        · rw [if_pos hlo] at hstep
          cases hBA : BiSec.AddVal c fuel lo (X-1) v b A with
          | none =>
            rw [hBA, Option.none_bind] at hstep
            cases hstep
          | some lo1 =>
            rw [hBA, Option.some_bind, if_neg (not_le.mpr hhiF), Option.map_some'] at hstep
            obtain rfl := Option.some.inj hstep
            obtain ⟨hSlo1, hperml⟩ := ihB lo (X-1) v b A (loBox curA (X-1)) lo1 hSlo
                (by omega) (by omega) (loBox_wf hwfcur)
                (agreeUpTo_loBox hagree hwfcur hXD rfl (by omega))
                hwb (routeGuard_mono (by omega) hguard)
                (by
                  intro hv
                  apply hfresh
                  rw [vals_bin, keysOf_append, List.mem_append]
                  exact Or.inl hv)
                hBA
            refine ⟨?_, ?_⟩
            · rw [SubInv]
              refine ⟨hX2, hXD2, ?_, hcHi, hSlo1, hShi⟩
              intro p hp
              rcases List.mem_cons.mp (hperml.mem_iff.mp hp) with hp | hp
              · obtain rfl : p = (v, b) := hp
                rw [hmidC]
                exact hhiF
              · exact hcLo p hp
            · rw [vals_bin, vals_bin]
              refine (List.Perm.append_right _ hperml).trans ?_
              rw [List.cons_append]
        · rw [if_neg (not_le.mpr hloF), Option.some_bind] at hstep
          cases hBA : BiSec.AddVal c fuel hi (X-1) v b A with
          | none =>
            rw [hBA, if_pos hhi, Option.map_none'] at hstep
            cases hstep
          | some hi1 =>
            rw [if_pos hhi, hBA, Option.map_some'] at hstep
            obtain rfl := Option.some.inj hstep
            obtain ⟨hShi1, hpermh⟩ := ihB hi (X-1) v b A (hiBox curA (X-1)) hi1 hShi
                (by omega) (by omega) (hiBox_wf hwfcur)
                (agreeUpTo_hiBox hagree hwfcur hXD rfl (by omega))
                hwb (routeGuard_mono (by omega) hguard)
                (by
                  intro hv
                  apply hfresh
                  rw [vals_bin, keysOf_append, List.mem_append]
                  exact Or.inr hv)
                hBA
            refine ⟨?_, ?_⟩
            · rw [SubInv]
              refine ⟨hX2, hXD2, hcLo, ?_, hSlo, hShi1⟩
              intro p hp
              rcases List.mem_cons.mp (hpermh.mem_iff.mp hp) with hp | hp
              · obtain rfl : p = (v, b) := hp
                rw [hmidC]
                exact hloF
              · exact hcHi p hp
            · rw [vals_bin, vals_bin]
              refine (List.Perm.append_left _ hpermh).trans ?_
              exact List.perm_middle
    · -- ListAddOK (fuel+1)
      rintro s entries A s1 hSI hwfA hents hnd hdisj hstep
      cases entries with
      | nil =>
        simp only [BiSec.AddList] at hstep
        obtain rfl := Option.some.inj hstep
        exact ⟨hSI, by rw [List.nil_append]⟩
      | cons p rest =>
        simp only [BiSec.AddList] at hstep
        cases hAV : BiSec.AddVal c fuel s c.D p.1 p.2 A with
        | none =>
          rw [hAV, Option.none_bind] at hstep
          cases hstep
        | some sm =>
          rw [hAV, Option.some_bind] at hstep
          have hp := hents p (List.mem_cons_self _ _)
          obtain ⟨hSIm, hpermm⟩ := ihB s c.D p.1 p.2 A A sm hSI hD le_rfl hwfA
              agreeUpTo_refl hp.1 (routeGuard_of_canFall hsh hp.2)
              (hdisj p.1 (by rw [keysOf_cons]; exact List.mem_cons_self _ _))
              hAV
          rw [keysOf_cons, List.nodup_cons] at hnd
          obtain ⟨hSI1, hperm1⟩ := ihL sm rest A s1 hSIm hwfA
              (fun q hq => hents q (List.mem_cons_of_mem _ hq))
              hnd.2
              (by
                intro k hk hk2
                rcases mem_keysOf.mp hk2 with ⟨bu, hbu⟩
                rcases List.mem_cons.mp (hpermm.mem_iff.mp hbu) with hbu | hbu
                · have hkp : k = p.1 := congrArg Prod.fst hbu
                  subst hkp
                  exact hnd.1 hk
                · exact hdisj k (by rw [keysOf_cons]; exact List.mem_cons_of_mem _ hk)
                    (mem_keysOf.mpr ⟨bu, hbu⟩))
              hstep
          refine ⟨hSI1, ?_⟩
          refine hperm1.trans ?_
          refine (List.Perm.append_left _ hpermm).trans ?_
          rw [List.cons_append]
          exact List.perm_middle

end Orthtree

namespace Orthtree

theorem eraseKey_append {l1 l2 : List (ℕ × Box)} {v : ℕ} :
    eraseKey (l1 ++ l2) v = eraseKey l1 v ++ eraseKey l2 v := by
  rw [eraseKey, eraseKey, eraseKey, List.filter_append]

theorem eraseKey_of_not_mem {l : List (ℕ × Box)} {v : ℕ} (h : v ∉ keysOf l) :
    eraseKey l v = l := by
  rw [eraseKey, List.filter_eq_self]
  intro p hp
  simp only [ne_eq, decide_not, Bool.not_eq_true', decide_eq_false_iff_not]
  intro hpv
  exact h (mem_keysOf.mpr ⟨p.2, by rw [← hpv]; exact hp⟩)

theorem length_eraseKey {l : List (ℕ × Box)} {v : ℕ}
    (hnd : (keysOf l).Nodup) (hv : v ∈ keysOf l) :
    (eraseKey l v).length + 1 = l.length := by
  induction l with
  | nil => cases hv
  | cons p rest ih =>
    rw [keysOf_cons, List.nodup_cons] at hnd
    rw [keysOf_cons, List.mem_cons] at hv
    by_cases hpv : p.1 = v
    · have hvr : v ∉ keysOf rest := by
        rw [← hpv]
        exact hnd.1
      rw [eraseKey, List.filter_cons_of_neg, ← eraseKey, eraseKey_of_not_mem hvr, List.length_cons]
      simp [hpv]
    · rcases hv with h | h
      · exact absurd h.symm hpv
      · rw [eraseKey, List.filter_cons_of_pos, ← eraseKey, List.length_cons, List.length_cons,
          ih hnd.2 h]
        simp [hpv]

theorem keysOf_eraseKey_nodup {l : List (ℕ × Box)} {v : ℕ} (hnd : (keysOf l).Nodup) :
    (keysOf (eraseKey l v)).Nodup :=
  List.Nodup.sublist (List.Sublist.map _ eraseKey_sublist) hnd

theorem nodup_keys_append_left {l1 l2 : List (ℕ × Box)}
    (h : (keysOf (l1 ++ l2)).Nodup) : (keysOf l1).Nodup := by
  rw [keysOf_append, List.nodup_append] at h
  exact h.1

theorem nodup_keys_append_right {l1 l2 : List (ℕ × Box)}
    (h : (keysOf (l1 ++ l2)).Nodup) : (keysOf l2).Nodup := by
  rw [keysOf_append, List.nodup_append] at h
  exact h.2.1

theorem nodup_keys_append_disj {l1 l2 : List (ℕ × Box)}
    (h : (keysOf (l1 ++ l2)).Nodup) {k : ℕ} (hk : k ∈ keysOf l1) : k ∉ keysOf l2 := by
  rw [keysOf_append, List.nodup_append] at h
  exact h.2.2 hk

mutual
theorem nodeDel_pres (c : Cfg) (hD : 0 < c.D) : ∀ (n : Node) (v : ℕ) (bv : Box),
    NodeInv c n → (v, bv) ∈ Node.vals n →
    NodeInv c (Node.Del c n v bv) ∧
    (Node.vals (Node.Del c n v bv)).Perm (eraseKey (Node.vals n) v) ∧
    Node.area (Node.Del c n v bv) = Node.area n
  | .mk area lvl bucket cnt none, v, bv, hInv, hm => by
    rw [NodeInv] at hInv
    obtain ⟨hwfA, hwfB, hcnt, hnd⟩ := hInv
    rw [vals_mk_none] at hm
    have hvk : v ∈ keysOf bucket := mem_keysOf.mpr ⟨bv, hm⟩
    have hlen := length_eraseKey hnd hvk
    have hres : Node.Del c (.mk area lvl bucket cnt none) v bv =
        .mk area lvl (eraseKey bucket v) (cnt - 1) none := by
      simp only [Node.Del]
      by_cases hcol : cnt - 1 ≤ c.G
      · rw [if_pos hcol]
      · rw [if_neg hcol, if_pos (containsKey_iff.mpr hvk)]
    rw [hres]
    refine ⟨?_, ?_, rfl⟩
    · rw [NodeInv]
      refine ⟨hwfA, ?_, ?_, keysOf_eraseKey_nodup hnd⟩
      · intro p hp
        exact hwfB p (mem_eraseKey.mp hp).1
      · omega
    · rw [vals_mk_none, vals_mk_none]
  | .mk area lvl bucket cnt (some s), v, bv, hInv, hm => by
    rw [NodeInv] at hInv
    obtain ⟨hwfA, hwfB, hcnt, hnd, hSI⟩ := hInv
    rw [vals_mk_some] at hm
    have hvk : v ∈ keysOf (BiSec.vals s ++ bucket) := mem_keysOf.mpr ⟨bv, hm⟩
    have hlen := length_eraseKey hnd hvk
    rw [List.length_append] at hlen
    simp only [Node.Del]
    by_cases hcol : cnt - 1 ≤ c.G
    · rw [if_pos hcol]
      have hndsw : (keysOf (bucket ++ BiSec.vals s)).Nodup := by
        rw [keysOf_append]
        refine nodup_append_swap ?_
        rw [← keysOf_append]
        exact hnd
      rw [bisecGather_eq s bucket hndsw]
      have hperm : (eraseKey (bucket ++ BiSec.vals s) v).Perm
          (eraseKey (BiSec.vals s ++ bucket) v) :=
        List.Perm.filter _ List.perm_append_comm
      refine ⟨?_, ?_, rfl⟩
      · rw [NodeInv]
        refine ⟨hwfA, ?_, ?_, keysOf_eraseKey_nodup hndsw⟩
        · intro p hp
          have hp1 := (mem_eraseKey.mp hp).1
          rcases List.mem_append.mp hp1 with hp1 | hp1
          · exact hwfB p hp1
          · exact bisecVals_wf hSI p hp1
        · have := hperm.length_eq
          have h2 := length_eraseKey hndsw (by
            rw [keysOf_append]
            rw [keysOf_append] at hvk
            exact List.mem_append.mpr (List.mem_append.mp hvk).symm)
          rw [List.length_append] at h2
          omega
      · rw [vals_mk_none, vals_mk_some]
        exact hperm
    · rw [if_neg hcol]
      by_cases hvb : containsKey bucket v = true
      · rw [if_pos hvb]
        have hvnotin : v ∉ keysOf (BiSec.vals s) := by
          intro hvs
          exact nodup_keys_append_disj hnd hvs (containsKey_iff.mp hvb)
        refine ⟨?_, ?_, rfl⟩
        · rw [NodeInv]
          have hbnd : (keysOf bucket).Nodup := nodup_keys_append_right hnd
          refine ⟨hwfA, ?_, ?_, ?_, hSI⟩
          · intro p hp
            exact hwfB p (mem_eraseKey.mp hp).1
          · have := length_eraseKey hbnd (containsKey_iff.mp hvb)
            omega
          · rw [keysOf_append]
            rw [keysOf_append] at hnd
            rw [List.nodup_append] at hnd ⊢
            refine ⟨hnd.1, keysOf_eraseKey_nodup hnd.2.1, ?_⟩
            intro k hk hk2
            exact hnd.2.2 hk (mem_keysOf_eraseKey.mp hk2).1
        · rw [vals_mk_some, vals_mk_some, eraseKey_append, eraseKey_of_not_mem hvnotin]
      · rw [if_neg hvb]
        have hvnotb : v ∉ keysOf bucket := fun hk => hvb (containsKey_iff.mpr hk)
        have hms : (v, bv) ∈ BiSec.vals s := by
          rcases List.mem_append.mp hm with hm | hm
          · exact hm
          · exact absurd (mem_keysOf.mpr ⟨bv, hm⟩) hvnotb
        obtain ⟨hSI1, hperm1⟩ := bisecDel_pres c hD s c.D v bv area area hSI hD le_rfl hwfA
            agreeUpTo_refl hms (nodup_keys_append_left hnd)
        refine ⟨?_, ?_, rfl⟩
        · rw [NodeInv]
          refine ⟨hwfA, hwfB, ?_, ?_, hSI1⟩
          · have e1 := hperm1.length_eq
            have e2 := length_eraseKey (nodup_keys_append_left hnd)
              (mem_keysOf.mpr ⟨bv, hms⟩)
            omega
          · refine nodup_of_perm_keys (List.Perm.append_right bucket hperm1).symm ?_
            rw [keysOf_append]
            rw [keysOf_append] at hnd
            rw [List.nodup_append] at hnd ⊢
            refine ⟨keysOf_eraseKey_nodup hnd.1, hnd.2.1, ?_⟩
            intro k hk hk2
            exact hnd.2.2 (mem_keysOf_eraseKey.mp hk).1 hk2
        · rw [vals_mk_some, vals_mk_some, eraseKey_append, eraseKey_of_not_mem hvnotb]
          exact List.Perm.append_right bucket hperm1
theorem bisecDel_pres (c : Cfg) (hD : 0 < c.D) :
    ∀ (s : BiSec) (X : ℕ) (v : ℕ) (bv : Box) (A curA : Box),
    SubInv c s curA X → 1 ≤ X → X ≤ c.D → Box.WFb c.D curA = true →
    AgreeUpTo A curA X → (v, bv) ∈ BiSec.vals s → (keysOf (BiSec.vals s)).Nodup →
    SubInv c (BiSec.Del c s X v bv A) curA X ∧
    (BiSec.vals (BiSec.Del c s X v bv A)).Perm (eraseKey (BiSec.vals s) v)
  | .leaf lo hi, X, v, bv, A, curA, hSI, hX, hXD, hwfcur, hagree, hm, hnd => by
    have hwbv : Box.WFb c.D bv = true := bisecVals_wf hSI (v, bv) hm
    have hwbv0 : bv.pntMin 0 ≤ bv.pntMax 0 := wfb_iff.mp hwbv 0 hD
    rw [SubInv] at hSI
    obtain ⟨hcLo, hcHi, hIlo, hIhi⟩ := hSI
    rw [vals_leaf] at hm hnd
    have hmidC : Box.mid curA 0 = (A.pntMax 0 + A.pntMin 0) / 2 :=
      agreeUpTo_mid hagree (by omega)
    simp only [BiSec.Del]
    rcases List.mem_append.mp hm with hmlo | hmhi
    · have hmax : bv.pntMax 0 < (A.pntMax 0 + A.pntMin 0) / 2 := by
        rw [← hmidC]
        exact hcLo (v, bv) hmlo
      have hvnothi : v ∉ keysOf (Node.vals hi) := by
        intro hk
        exact nodup_keys_append_disj hnd (mem_keysOf.mpr ⟨bv, hmlo⟩) hk
      rw [if_pos (le_trans hwbv0 (le_of_lt hmax)), if_neg (not_le.mpr hmax)]
      obtain ⟨hIlo1, hperml, _⟩ := nodeDel_pres c hD lo v bv hIlo hmlo
      refine ⟨?_, ?_⟩
      · rw [SubInv]
        refine ⟨?_, hcHi, hIlo1, hIhi⟩
        intro p hp
        have hp2 := hperml.mem_iff.mp hp
        exact hcLo p (mem_eraseKey.mp hp2).1
      · rw [vals_leaf, vals_leaf, eraseKey_append, eraseKey_of_not_mem hvnothi]
        exact List.Perm.append_right _ hperml
    · have hmin : (A.pntMax 0 + A.pntMin 0) / 2 < bv.pntMin 0 := by
        rw [← hmidC]
        exact hcHi (v, bv) hmhi
      have hvnotlo : v ∉ keysOf (Node.vals lo) := by
        intro hk
        exact absurd (mem_keysOf.mpr ⟨bv, hmhi⟩) (nodup_keys_append_disj hnd hk)
      rw [if_neg (not_le.mpr hmin), if_pos (le_trans (le_of_lt hmin) hwbv0)]
      obtain ⟨hIhi1, hpermh, _⟩ := nodeDel_pres c hD hi v bv hIhi hmhi
      refine ⟨?_, ?_⟩
      · rw [SubInv]
        refine ⟨hcLo, ?_, hIlo, hIhi1⟩
        intro p hp
        have hp2 := hpermh.mem_iff.mp hp
        exact hcHi p (mem_eraseKey.mp hp2).1
      · rw [vals_leaf, vals_leaf, eraseKey_append, eraseKey_of_not_mem hvnotlo]
        exact List.Perm.append_left _ hpermh
  | .bin lo hi, X, v, bv, A, curA, hSI, hX, hXD, hwfcur, hagree, hm, hnd => by
    have hwbv : Box.WFb c.D bv = true := bisecVals_wf hSI (v, bv) hm
    rw [SubInv] at hSI
    obtain ⟨hX2, hXD2, hcLo, hcHi, hSlo, hShi⟩ := hSI
    have haxD : X - 1 < c.D := by omega
    have hwbvx : bv.pntMin (X-1) ≤ bv.pntMax (X-1) := wfb_iff.mp hwbv (X-1) haxD
    rw [vals_bin] at hm hnd
    have hmidC : Box.mid curA (X-1) = (A.pntMax (X-1) + A.pntMin (X-1)) / 2 :=
      agreeUpTo_mid hagree (by omega)
    simp only [BiSec.Del]
    rcases List.mem_append.mp hm with hmlo | hmhi
    · have hmax : bv.pntMax (X-1) < (A.pntMax (X-1) + A.pntMin (X-1)) / 2 := by
        rw [← hmidC]
        exact hcLo (v, bv) hmlo
      have hvnothi : v ∉ keysOf (BiSec.vals hi) := by
        intro hk
        exact nodup_keys_append_disj hnd (mem_keysOf.mpr ⟨bv, hmlo⟩) hk
      rw [if_pos (le_trans hwbvx (le_of_lt hmax)), if_neg (not_le.mpr hmax)]
      obtain ⟨hSlo1, hperml⟩ := bisecDel_pres c hD lo (X-1) v bv A (loBox curA (X-1)) hSlo
          (by omega) (by omega) (loBox_wf hwfcur)
          (agreeUpTo_loBox hagree hwfcur hXD rfl (by omega))
          hmlo (nodup_keys_append_left hnd)
      refine ⟨?_, ?_⟩
      · rw [SubInv]
        refine ⟨hX2, hXD2, ?_, hcHi, hSlo1, hShi⟩
        intro p hp
        have hp2 := hperml.mem_iff.mp hp
        exact hcLo p (mem_eraseKey.mp hp2).1
      · rw [vals_bin, vals_bin, eraseKey_append, eraseKey_of_not_mem hvnothi]
        exact List.Perm.append_right _ hperml
    · have hmin : (A.pntMax (X-1) + A.pntMin (X-1)) / 2 < bv.pntMin (X-1) := by
        rw [← hmidC]
        exact hcHi (v, bv) hmhi
      have hvnotlo : v ∉ keysOf (BiSec.vals lo) := by
        intro hk
        exact absurd (mem_keysOf.mpr ⟨bv, hmhi⟩) (nodup_keys_append_disj hnd hk)
      rw [if_neg (not_le.mpr hmin), if_pos (le_trans (le_of_lt hmin) hwbvx)]
      obtain ⟨hShi1, hpermh⟩ := bisecDel_pres c hD hi (X-1) v bv A (hiBox curA (X-1)) hShi
          (by omega) (by omega) (hiBox_wf hwfcur)
          (agreeUpTo_hiBox hagree hwfcur hXD rfl (by omega))
          hmhi (nodup_keys_append_right hnd)
      refine ⟨?_, ?_⟩
      · rw [SubInv]
        refine ⟨hX2, hXD2, hcLo, ?_, hSlo, hShi1⟩
        intro p hp
        have hp2 := hpermh.mem_iff.mp hp
        exact hcHi p (mem_eraseKey.mp hp2).1
      · rw [vals_bin, vals_bin, eraseKey_append, eraseKey_of_not_mem hvnotlo]
        exact List.Perm.append_left _ hpermh
end

end Orthtree

namespace Orthtree

/-- Every tree reachable by precondition-respecting `Add`/`Del` operations
in the default exclusive mode satisfies the structural invariant, and its
registry mirrors the node tree exactly. -/
theorem reach_inv {c : Cfg} (hsh : c.SH = false) (hD : 0 < c.D) :
    ∀ {t : Tree}, Reach c t → TreeInv c t := by
  intro t h
  induction h with
  | init area hwf =>
    refine ⟨?_, ?_⟩
    · show NodeInv c (Node.mk area 1 [] 0 none)
      rw [NodeInv]
      exact ⟨hwf, by simp, rfl, List.nodup_nil⟩
    · show (Node.vals (Node.mk area 1 [] 0 none)).Perm []
      rw [vals_mk_none]
  | add hr hv hb hstep ih =>
    rename_i t0 t1 v b fuel
    rw [Tree.Add] at hstep
    cases hNA : Node.Add c fuel t0.root v b with
    | none =>
      rw [hNA, Option.map_none'] at hstep
      cases hstep
    | some r =>
      rw [hNA, Option.map_some'] at hstep
      obtain rfl := Option.some.inj hstep
      have hfreshreg : v ∉ keysOf t0.allValues := by
        intro hk
        rw [Tree.Contains] at hv
        rw [containsKey_iff.mpr hk] at hv
        cases hv
      have hfresh : v ∉ keysOf (Node.vals t0.root) := by
        intro hk
        rcases mem_keysOf.mp hk with ⟨bu, hbu⟩
        exact hfreshreg (mem_keysOf.mpr ⟨bu, ih.2.mem_iff.mp hbu⟩)
      obtain ⟨hInv1, hperm1, _⟩ := (addOK_all c hsh hD fuel).1 t0.root v b r ih.1 hb hfresh hNA
      refine ⟨hInv1, ?_⟩
      show (Node.vals r).Perm (emplace t0.allValues v b)
      rw [emplace_fresh hfreshreg]
      refine hperm1.trans ?_
      refine (List.Perm.cons _ ih.2).trans ?_
      exact (List.perm_append_singleton _ _).symm
  | del hr hstep ih =>
    rename_i t0 t1 v
    rw [Tree.Del] at hstep
    cases hLK : lookupKey t0.allValues v with
    | none =>
      rw [hLK, Option.map_none'] at hstep
      cases hstep
    | some bv =>
      rw [hLK, Option.map_some'] at hstep
      obtain rfl := Option.some.inj hstep
      have hmreg : (v, bv) ∈ t0.allValues := lookupKey_mem hLK
      have hm : (v, bv) ∈ Node.vals t0.root := ih.2.mem_iff.mpr hmreg
      obtain ⟨hInv1, hperm1, _⟩ := nodeDel_pres c hD t0.root v bv ih.1 hm
      refine ⟨hInv1, ?_⟩
      show (Node.vals (Node.Del c t0.root v bv)).Perm (eraseKey t0.allValues v)
      refine hperm1.trans ?_
      exact List.Perm.filter _ ih.2

end Orthtree

namespace Orthtree

/-! Unordered-pair bookkeeping for `FindIntersected()`. -/

/-- The unordered pair `{u, w}` occurs in a pair list (in either
orientation). -/
def pairMem (u w : ℕ) (l : List (ℕ × ℕ)) : Prop := (u, w) ∈ l ∨ (w, u) ∈ l

/-- Two ordered pairs denote the same unordered pair. -/
def sameUnordered (p q : ℕ × ℕ) : Prop := q = p ∨ q = (p.2, p.1)

/-- No unordered pair is listed twice. -/
def PairsOnce (l : List (ℕ × ℕ)) : Prop := l.Pairwise fun p q => ¬ sameUnordered p q

/-- The brute-force pairwise criterion: `u` and `w` are distinct stored
values whose boxes intersect. -/
def bruteP (D : ℕ) (l : List (ℕ × Box)) (u w : ℕ) : Prop :=
  u ≠ w ∧ ∃ bu bw, (u, bu) ∈ l ∧ (w, bw) ∈ l ∧ Box.Intersect D bu bw = true

/-- The deep contents of an optional subdivision. -/
def subValsOf : Option BiSec → List (ℕ × Box)
  | none => []
  | some s => BiSec.vals s

@[simp] theorem subValsOf_none : subValsOf none = [] := rfl

@[simp] theorem subValsOf_some {s : BiSec} : subValsOf (some s) = BiSec.vals s := rfl

theorem pairMem_append {u w : ℕ} {l1 l2 : List (ℕ × ℕ)} :
    pairMem u w (l1 ++ l2) ↔ pairMem u w l1 ∨ pairMem u w l2 := by
  rw [pairMem, pairMem, pairMem, List.mem_append, List.mem_append]
  tauto

theorem pairMem_nil {u w : ℕ} : ¬ pairMem u w [] := by
  rintro (h | h) <;> cases h

theorem bruteP_perm {D : ℕ} {l1 l2 : List (ℕ × Box)} (h : l1.Perm l2) {u w : ℕ} :
    bruteP D l1 u w ↔ bruteP D l2 u w := by
  rw [bruteP, bruteP]
  constructor
  · rintro ⟨hne, bu, bw, h1, h2, h3⟩
    exact ⟨hne, bu, bw, h.mem_iff.mp h1, h.mem_iff.mp h2, h3⟩
  · rintro ⟨hne, bu, bw, h1, h2, h3⟩
    exact ⟨hne, bu, bw, h.mem_iff.mpr h1, h.mem_iff.mpr h2, h3⟩

theorem memT_iff {D : ℕ} {b1 : Box} {rest : List (ℕ × Box)} {v1 u w : ℕ} :
    ((u, w) ∈ (rest.filter fun p => Box.Intersect D b1 p.2).map fun p => (v1, p.1)) ↔
      u = v1 ∧ ∃ bw, (w, bw) ∈ rest ∧ Box.Intersect D b1 bw = true := by
  rw [List.mem_map]
  constructor
  · rintro ⟨p, hp, heq⟩
    rw [List.mem_filter] at hp
    rw [Prod.mk.injEq] at heq
    refine ⟨heq.1.symm, p.2, ?_, hp.2⟩
    rw [← heq.2]
    exact hp.1
  · rintro ⟨rfl, bw, hm, hI⟩
    refine ⟨(w, bw), ?_, rfl⟩
    rw [List.mem_filter]
    exact ⟨hm, hI⟩

end Orthtree

namespace Orthtree

theorem pairsOnce_nil : PairsOnce [] := List.Pairwise.nil

/-- Full specification of the outer bucket loop of
`Node::FindIntersected(inter)`: its pairs are exactly the intersecting
pairs with at least one end in the bucket (bucket–bucket pairs and
bucket–subdivision pairs), each unordered pair once, and every emitted pair
has its first component in the bucket. -/
theorem bucketLoop_spec {D : ℕ} {sub : Option BiSec} :
    ∀ (bucket : List (ℕ × Box)),
      (keysOf (subValsOf sub ++ bucket)).Nodup →
      (∀ p ∈ bucketLoop D sub bucket, p.1 ∈ keysOf bucket ∧
         (p.2 ∈ keysOf bucket ∨ p.2 ∈ keysOf (subValsOf sub))) ∧
      (∀ u w, pairMem u w (bucketLoop D sub bucket) ↔
        (u ≠ w ∧ ∃ bu bw, Box.Intersect D bu bw = true ∧
          (((u, bu) ∈ bucket ∧ (w, bw) ∈ bucket) ∨
           ((u, bu) ∈ bucket ∧ (w, bw) ∈ subValsOf sub) ∨
           ((w, bw) ∈ bucket ∧ (u, bu) ∈ subValsOf sub)))) ∧
      PairsOnce (bucketLoop D sub bucket) := by
  intro bucket
  induction bucket with
  | nil =>
    intro _
    refine ⟨?_, ?_, pairsOnce_nil⟩
    · intro p hp
      cases hp
    · intro u w
      constructor
      · intro h
        exact absurd h pairMem_nil
      · rintro ⟨hne, bu, bw, hI, (⟨h1, _⟩ | ⟨h1, _⟩ | ⟨h1, _⟩)⟩ <;> cases h1
  | cons hd rest ih =>
    obtain ⟨v1, b1⟩ := hd
    intro hnd
    have hndsplit : v1 ∉ keysOf (subValsOf sub) ∧ v1 ∉ keysOf rest ∧
        (keysOf (subValsOf sub ++ rest)).Nodup := by
      rw [keysOf_append, keysOf_cons] at hnd
      rw [List.nodup_middle, List.nodup_cons, List.mem_append, ← keysOf_append] at hnd
      push_neg at hnd
      exact ⟨hnd.1.1, hnd.1.2, hnd.2⟩
    obtain ⟨hv1ns, hv1nr, hndrest⟩ := hndsplit
    obtain ⟨ihSup, ihMem, ihOnce⟩ := ih hndrest
    have hdisjSR : ∀ k ∈ keysOf (subValsOf sub), k ∉ keysOf rest := by
      intro k hk
      rw [keysOf_append] at hndrest
      rw [List.nodup_append] at hndrest
      exact fun hk2 => hndrest.2.2 hk hk2
    -- the subdivision-query segment
    have hSmem : ∀ (x y : ℕ), ((x, y) ∈ (match sub with
        | some s => (BiSec.FindBox D s b1 []).map fun u => (v1, u)
        | none => ([] : List (ℕ × ℕ)))) ↔
        x = v1 ∧ ∃ bw, (y, bw) ∈ subValsOf sub ∧ Box.Intersect D b1 bw = true := by
      intro x y
      cases sub with
      | none =>
        constructor
        · intro h
          cases h
        · rintro ⟨_, bw, hm, _⟩
          cases hm
      | some s =>
        rw [List.mem_map]
        constructor
        · rintro ⟨u1, hu1, heq⟩
          rw [Prod.mk.injEq] at heq
          rcases (bisecFindBox_mem s b1 [] u1).mp hu1 with h | ⟨bw, hm, hI⟩
          · cases h
          · refine ⟨heq.1.symm, bw, ?_, hI⟩
            rw [subValsOf_some, ← heq.2]
            exact hm
        · rintro ⟨rfl, bw, hm, hI⟩
          refine ⟨y, ?_, rfl⟩
          rw [bisecFindBox_mem]
          exact Or.inr ⟨bw, hm, hI⟩
    have hSsup : ∀ q ∈ (match sub with
        | some s => (BiSec.FindBox D s b1 []).map fun u => (v1, u)
        | none => ([] : List (ℕ × ℕ))), q.1 = v1 ∧ q.2 ∈ keysOf (subValsOf sub) := by
      intro q hq
      obtain ⟨x, y⟩ := q
      obtain ⟨rfl, bw, hm, _⟩ := (hSmem x y).mp hq
      exact ⟨rfl, mem_keysOf.mpr ⟨bw, hm⟩⟩
    have hSonce : PairsOnce (match sub with
        | some s => (BiSec.FindBox D s b1 []).map fun u => (v1, u)
        | none => ([] : List (ℕ × ℕ))) := by
      cases sub with
      | none => exact pairsOnce_nil
      | some s =>
        rw [PairsOnce, List.pairwise_map]
        have hndFB : (BiSec.FindBox D s b1 []).Pairwise (· ≠ ·) :=
          bisecFindBox_nodup s b1 [] List.nodup_nil
        refine List.Pairwise.imp_of_mem ?_ hndFB
        intro a bb ha hb hne hsame
        rcases hsame with h | h
        · simp only [Prod.mk.injEq] at h
          exact hne h.2.symm
        · simp only [Prod.mk.injEq] at h
          apply hv1ns
          rw [subValsOf_some]
          rcases (bisecFindBox_mem s b1 [] a).mp ha with h2 | ⟨bw, hm, _⟩
          · cases h2
          · rw [h.1]
            exact mem_keysOf.mpr ⟨bw, hm⟩
    -- the bucket-triangle segment
    have hTsup : ∀ q ∈ ((rest.filter fun p => Box.Intersect D b1 p.2).map fun p => (v1, p.1)),
        q.1 = v1 ∧ q.2 ∈ keysOf rest := by
      intro q hq
      obtain ⟨x, y⟩ := q
      obtain ⟨rfl, bw, hm, _⟩ := memT_iff.mp hq
      exact ⟨rfl, mem_keysOf.mpr ⟨bw, hm⟩⟩
    have hTonce : PairsOnce ((rest.filter fun p => Box.Intersect D b1 p.2).map fun p => (v1, p.1)) := by
      rw [PairsOnce, List.pairwise_map]
      have hknd : (keysOf (rest.filter fun p => Box.Intersect D b1 p.2)).Nodup :=
        List.Nodup.sublist (List.Sublist.map _ (List.filter_sublist _))
          (@nodup_keys_append_right (subValsOf sub) _ hndrest)
      have hknd2 : ((rest.filter fun p => Box.Intersect D b1 p.2).map Prod.fst).Pairwise (· ≠ ·) :=
        hknd
      rw [List.pairwise_map] at hknd2
      refine List.Pairwise.imp_of_mem ?_ hknd2
      intro a bb ha hb hne hsame
      rcases hsame with h | h
      · simp only [Prod.mk.injEq] at h
        exact hne h.2.symm
      · simp only [Prod.mk.injEq] at h
        apply hv1nr
        rw [h.1]
        rw [List.mem_filter] at ha
        exact mem_keysOf.mpr ⟨a.2, ha.1⟩
    refine ⟨?_, ?_, ?_⟩
    · -- support
      intro p hp
      simp only [bucketLoop] at hp
      rw [List.append_assoc, List.mem_append, List.mem_append] at hp
      rcases hp with hp | hp | hp
      · obtain ⟨h1, h2⟩ := hTsup p hp
        rw [keysOf_cons]
        exact ⟨by rw [h1]; exact List.mem_cons_self _ _, Or.inl (List.mem_cons_of_mem _ h2)⟩
      · obtain ⟨h1, h2⟩ := hSsup p hp
        rw [keysOf_cons]
        exact ⟨by rw [h1]; exact List.mem_cons_self _ _, Or.inr h2⟩
      · obtain ⟨h1, h2⟩ := ihSup p hp
        rw [keysOf_cons]
        refine ⟨List.mem_cons_of_mem _ h1, ?_⟩
        rcases h2 with h2 | h2
        · exact Or.inl (List.mem_cons_of_mem _ h2)
        · exact Or.inr h2
    · -- membership characterisation
      intro u w
      simp only [bucketLoop]
      rw [List.append_assoc, pairMem_append, pairMem_append, ihMem]
      constructor
      · rintro ((hT | hT) | (hS | hS) | hR)
        · obtain ⟨rfl, bw, hm, hI⟩ := memT_iff.mp hT
          refine ⟨?_, b1, bw, hI, Or.inl ⟨List.mem_cons_self _ _, List.mem_cons_of_mem _ hm⟩⟩
          intro huw
          exact hv1nr (by rw [huw]; exact mem_keysOf.mpr ⟨bw, hm⟩)
        · obtain ⟨rfl, bu, hm, hI⟩ := memT_iff.mp hT
          refine ⟨?_, bu, b1, ?_, Or.inl ⟨List.mem_cons_of_mem _ hm, List.mem_cons_self _ _⟩⟩
          · intro huw
            exact hv1nr (by rw [← huw]; exact mem_keysOf.mpr ⟨bu, hm⟩)
          · rw [intersect_comm]
            exact hI
        · obtain ⟨rfl, bw, hm, hI⟩ := (hSmem u w).mp hS
          refine ⟨?_, b1, bw, hI, Or.inr (Or.inl ⟨List.mem_cons_self _ _, hm⟩)⟩
          intro huw
          exact hv1ns (by rw [huw]; exact mem_keysOf.mpr ⟨bw, hm⟩)
        · obtain ⟨rfl, bu, hm, hI⟩ := (hSmem w u).mp hS
          refine ⟨?_, bu, b1, ?_, Or.inr (Or.inr ⟨List.mem_cons_self _ _, hm⟩)⟩
          · intro huw
            exact hv1ns (by rw [← huw]; exact mem_keysOf.mpr ⟨bu, hm⟩)
          · rw [intersect_comm]
            exact hI
        · obtain ⟨hne, bu, bw, hI, hc⟩ := hR
          refine ⟨hne, bu, bw, hI, ?_⟩
          rcases hc with ⟨h1, h2⟩ | ⟨h1, h2⟩ | ⟨h1, h2⟩
          · exact Or.inl ⟨List.mem_cons_of_mem _ h1, List.mem_cons_of_mem _ h2⟩
          · exact Or.inr (Or.inl ⟨List.mem_cons_of_mem _ h1, h2⟩)
          · exact Or.inr (Or.inr ⟨List.mem_cons_of_mem _ h1, h2⟩)
      · rintro ⟨hne, bu, bw, hI, hc⟩
        rcases hc with ⟨h1, h2⟩ | ⟨h1, h2⟩ | ⟨h1, h2⟩
        · rcases List.mem_cons.mp h1 with h1 | h1 <;> rcases List.mem_cons.mp h2 with h2 | h2
          · rw [Prod.mk.injEq] at h1 h2
            exact absurd (h1.1.trans h2.1.symm) hne
          · rw [Prod.mk.injEq] at h1
            refine Or.inl (Or.inl ?_)
            rw [memT_iff]
            refine ⟨h1.1, bw, h2, ?_⟩
            rw [← h1.2]
            exact hI
          · rw [Prod.mk.injEq] at h2
            refine Or.inl (Or.inr ?_)
            rw [memT_iff]
            refine ⟨h2.1, bu, h1, ?_⟩
            rw [← h2.2, intersect_comm]
            exact hI
          · exact Or.inr (Or.inr ⟨hne, bu, bw, hI, Or.inl ⟨h1, h2⟩⟩)
        · rcases List.mem_cons.mp h1 with h1 | h1
          · rw [Prod.mk.injEq] at h1
            refine Or.inr (Or.inl (Or.inl ?_))
            rw [hSmem]
            refine ⟨h1.1, bw, h2, ?_⟩
            rw [← h1.2]
            exact hI
          · exact Or.inr (Or.inr ⟨hne, bu, bw, hI, Or.inr (Or.inl ⟨h1, h2⟩)⟩)
        · rcases List.mem_cons.mp h1 with h1 | h1
          · rw [Prod.mk.injEq] at h1
            refine Or.inr (Or.inl (Or.inr ?_))
            rw [hSmem]
            refine ⟨h1.1, bu, h2, ?_⟩
            rw [← h1.2, intersect_comm]
            exact hI
          · exact Or.inr (Or.inr ⟨hne, bu, bw, hI, Or.inr (Or.inr ⟨h1, h2⟩)⟩)
    · -- each unordered pair once
      simp only [bucketLoop]
      rw [PairsOnce, List.append_assoc, List.pairwise_append]
      refine ⟨hTonce, ?_, ?_⟩
      · rw [List.pairwise_append]
        refine ⟨hSonce, ihOnce, ?_⟩
        intro p hp q hq hsame
        obtain ⟨hp1, hp2⟩ := hSsup p hp
        obtain ⟨hq1, hq2⟩ := ihSup q hq
        rcases hsame with h | h
        · apply hv1nr
          rw [← hp1, ← h]
          exact hq1
        · have hq2v : q.2 = v1 := by rw [h]; exact hp1
          rcases hq2 with hq2 | hq2
          · exact hv1nr (hq2v ▸ hq2)
          · exact hv1ns (hq2v ▸ hq2)
      · intro p hp q hq hsame
        obtain ⟨hp1, hp2⟩ := hTsup p hp
        rw [List.mem_append] at hq
        rcases hq with hq | hq
        · obtain ⟨hq1, hq2⟩ := hSsup q hq
          rcases hsame with h | h
          · apply hdisjSR q.2 hq2
            rw [h]
            exact hp2
          · apply hv1nr
            have hqp : q.1 = p.2 := by rw [h]
            rw [← hq1, hqp]
            exact hp2
        · obtain ⟨hq1, hq2⟩ := ihSup q hq
          rcases hsame with h | h
          · apply hv1nr
            rw [← hp1, ← h]
            exact hq1
          · have hq2v : q.2 = v1 := by rw [h, hp1]
            rcases hq2 with hq2 | hq2
            · apply hv1nr
              rw [← hq2v]
              exact hq2
            · apply hv1ns
              rw [← hq2v]
              exact hq2

end Orthtree

namespace Orthtree

theorem not_same_of_sep {p q : ℕ × ℕ} {K L : List ℕ} (hp : p.1 ∈ K)
    (hq1 : q.1 ∈ L) (hq2 : q.2 ∈ L) (hdisj : ∀ k ∈ K, k ∉ L) : ¬ sameUnordered p q := by
  rintro (h | h)
  · apply hdisj p.1 hp
    rw [← h]
    exact hq1
  · apply hdisj p.1 hp
    have hqp : q.2 = p.1 := by rw [h]
    rw [← hqp]
    exact hq2

/-- Cross-child separation: under the placement invariant, a value below
the low section cannot intersect a value below the high section. -/
theorem subInv_separation {c : Cfg} {lo hi : List (ℕ × Box)} {mid : ℚ} {ax : ℕ}
    (haxD : ax < c.D)
    (hlo : ∀ p ∈ lo, p.2.pntMax ax < mid) (hhi : ∀ p ∈ hi, mid < p.2.pntMin ax)
    {u w : ℕ} {bu bw : Box} (hu : (u, bu) ∈ lo) (hw : (w, bw) ∈ hi) :
    Box.Intersect c.D bu bw = false := by
  refine intersect_false_of_sep haxD ?_
  have h1 := hlo (u, bu) hu
  have h2 := hhi (w, bw) hw
  exact lt_trans h1 h2

mutual
theorem nodePairs_spec (c : Cfg) (hD : 0 < c.D) : ∀ (n : Node), NodeInv c n →
    (∀ p ∈ Node.FindPairs c.D n, p.1 ∈ keysOf (Node.vals n) ∧ p.2 ∈ keysOf (Node.vals n)) ∧
    (∀ u w, pairMem u w (Node.FindPairs c.D n) ↔ bruteP c.D (Node.vals n) u w) ∧
    PairsOnce (Node.FindPairs c.D n)
  | .mk area lvl bucket cnt none, hInv => by
    rw [NodeInv] at hInv
    obtain ⟨hwfA, hwfB, hcnt, hnd⟩ := hInv
    have hnd2 : (keysOf (subValsOf none ++ bucket)).Nodup := by
      rw [subValsOf_none, List.nil_append]
      exact hnd
    obtain ⟨hSup, hMem, hOnce⟩ := @bucketLoop_spec c.D none bucket hnd2
    have hshape : Node.FindPairs c.D (.mk area lvl bucket cnt none) =
        bucketLoop c.D none bucket := rfl
    rw [hshape, vals_mk_none]
    refine ⟨?_, ?_, hOnce⟩
    · intro p hp
      obtain ⟨h1, h2⟩ := hSup p hp
      rcases h2 with h2 | h2
      · exact ⟨h1, h2⟩
      · rw [subValsOf_none] at h2
        cases h2
    · intro u w
      rw [hMem u w, bruteP]
      constructor
      · rintro ⟨hne, bu, bw, hI, hc⟩
        rcases hc with ⟨h1, h2⟩ | ⟨h1, h2⟩ | ⟨h1, h2⟩
        · exact ⟨hne, bu, bw, h1, h2, hI⟩
        · rw [subValsOf_none] at h2
          cases h2
        · rw [subValsOf_none] at h2
          cases h2
      · rintro ⟨hne, bu, bw, h1, h2, hI⟩
        exact ⟨hne, bu, bw, hI, Or.inl ⟨h1, h2⟩⟩
  | .mk area lvl bucket cnt (some s), hInv => by
    rw [NodeInv] at hInv
    obtain ⟨hwfA, hwfB, hcnt, hnd, hSI⟩ := hInv
    have hnds : (keysOf (BiSec.vals s)).Nodup := nodup_keys_append_left hnd
    have hdisj : ∀ k ∈ keysOf bucket, k ∉ keysOf (BiSec.vals s) := by
      intro k hk hk2
      exact nodup_keys_append_disj hnd hk2 hk
    have hnd2 : (keysOf (subValsOf (some s) ++ bucket)).Nodup := by
      rw [subValsOf_some]
      exact hnd
    obtain ⟨hSupB, hMemB, hOnceB⟩ := @bucketLoop_spec c.D (some s) bucket hnd2
    obtain ⟨hSupS, hMemS, hOnceS⟩ := bisecPairs_spec c hD s area c.D hSI hnds
    have hshape : Node.FindPairs c.D (.mk area lvl bucket cnt (some s)) =
        bucketLoop c.D (some s) bucket ++ BiSec.FindPairs c.D s := rfl
    rw [hshape, vals_mk_some]
    refine ⟨?_, ?_, ?_⟩
    · intro p hp
      rw [List.mem_append] at hp
      rw [keysOf_append]
      rcases hp with hp | hp
      · obtain ⟨h1, h2⟩ := hSupB p hp
        refine ⟨List.mem_append_right _ h1, ?_⟩
        rcases h2 with h2 | h2
        · exact List.mem_append_right _ h2
        · rw [subValsOf_some] at h2
          exact List.mem_append_left _ h2
      · obtain ⟨h1, h2⟩ := hSupS p hp
        exact ⟨List.mem_append_left _ h1, List.mem_append_left _ h2⟩
    · intro u w
      rw [pairMem_append, hMemB u w, hMemS u w, bruteP, bruteP]
      constructor
      · rintro (⟨hne, bu, bw, hI, hc⟩ | ⟨hne, bu, bw, h1, h2, hI⟩)
        · rcases hc with ⟨h1, h2⟩ | ⟨h1, h2⟩ | ⟨h1, h2⟩
          · exact ⟨hne, bu, bw, List.mem_append_right _ h1, List.mem_append_right _ h2, hI⟩
          · rw [subValsOf_some] at h2
            exact ⟨hne, bu, bw, List.mem_append_right _ h1, List.mem_append_left _ h2, hI⟩
          · rw [subValsOf_some] at h2
            exact ⟨hne, bu, bw, List.mem_append_left _ h2, List.mem_append_right _ h1, hI⟩
        · exact ⟨hne, bu, bw, List.mem_append_left _ h1, List.mem_append_left _ h2, hI⟩
      · rintro ⟨hne, bu, bw, h1, h2, hI⟩
        rcases List.mem_append.mp h1 with h1 | h1 <;> rcases List.mem_append.mp h2 with h2 | h2
        · exact Or.inr ⟨hne, bu, bw, h1, h2, hI⟩
        · refine Or.inl ⟨hne, bu, bw, hI, Or.inr (Or.inr ⟨h2, ?_⟩)⟩
          rw [subValsOf_some]
          exact h1
        · refine Or.inl ⟨hne, bu, bw, hI, Or.inr (Or.inl ⟨h1, ?_⟩)⟩
          rw [subValsOf_some]
          exact h2
        · exact Or.inl ⟨hne, bu, bw, hI, Or.inl ⟨h1, h2⟩⟩
    · rw [PairsOnce, List.pairwise_append]
      refine ⟨hOnceB, hOnceS, ?_⟩
      intro p hp q hq
      obtain ⟨hp1, _⟩ := hSupB p hp
      obtain ⟨hq1, hq2⟩ := hSupS q hq
      exact not_same_of_sep hp1 hq1 hq2 hdisj
theorem bisecPairs_spec (c : Cfg) (hD : 0 < c.D) :
    ∀ (s : BiSec) (curA : Box) (X : ℕ), SubInv c s curA X → (keysOf (BiSec.vals s)).Nodup →
    (∀ p ∈ BiSec.FindPairs c.D s, p.1 ∈ keysOf (BiSec.vals s) ∧ p.2 ∈ keysOf (BiSec.vals s)) ∧
    (∀ u w, pairMem u w (BiSec.FindPairs c.D s) ↔ bruteP c.D (BiSec.vals s) u w) ∧
    PairsOnce (BiSec.FindPairs c.D s)
  | .leaf lo hi, curA, X, hSI, hnd => by
    rw [SubInv] at hSI
    obtain ⟨hcLo, hcHi, hIlo, hIhi⟩ := hSI
    rw [vals_leaf] at hnd
    obtain ⟨hSupL, hMemL, hOnceL⟩ := nodePairs_spec c hD lo hIlo
    obtain ⟨hSupH, hMemH, hOnceH⟩ := nodePairs_spec c hD hi hIhi
    have hdisj : ∀ k ∈ keysOf (Node.vals lo), k ∉ keysOf (Node.vals hi) :=
      fun k hk => nodup_keys_append_disj hnd hk
    have hsep : ∀ {u w : ℕ} {bu bw : Box}, (u, bu) ∈ Node.vals lo → (w, bw) ∈ Node.vals hi →
        Box.Intersect c.D bu bw = false :=
      fun hu hw => subInv_separation hD hcLo hcHi hu hw
    have hshape : BiSec.FindPairs c.D (.leaf lo hi) =
        Node.FindPairs c.D lo ++ Node.FindPairs c.D hi := rfl
    rw [hshape, vals_leaf]
    refine ⟨?_, ?_, ?_⟩
    · intro p hp
      rw [List.mem_append] at hp
      rw [keysOf_append]
      rcases hp with hp | hp
      · obtain ⟨h1, h2⟩ := hSupL p hp
        exact ⟨List.mem_append_left _ h1, List.mem_append_left _ h2⟩
      · obtain ⟨h1, h2⟩ := hSupH p hp
        exact ⟨List.mem_append_right _ h1, List.mem_append_right _ h2⟩
    · intro u w
      rw [pairMem_append, hMemL u w, hMemH u w, bruteP, bruteP, bruteP]
      constructor
      · rintro (⟨hne, bu, bw, h1, h2, hI⟩ | ⟨hne, bu, bw, h1, h2, hI⟩)
        · exact ⟨hne, bu, bw, List.mem_append_left _ h1, List.mem_append_left _ h2, hI⟩
        · exact ⟨hne, bu, bw, List.mem_append_right _ h1, List.mem_append_right _ h2, hI⟩
      · rintro ⟨hne, bu, bw, h1, h2, hI⟩
        rcases List.mem_append.mp h1 with h1 | h1 <;> rcases List.mem_append.mp h2 with h2 | h2
        · exact Or.inl ⟨hne, bu, bw, h1, h2, hI⟩
        · rw [hsep h1 h2] at hI
          cases hI
        · rw [intersect_comm, hsep h2 h1] at hI
          cases hI
        · exact Or.inr ⟨hne, bu, bw, h1, h2, hI⟩
    · rw [PairsOnce, List.pairwise_append]
      refine ⟨hOnceL, hOnceH, ?_⟩
      intro p hp q hq
      obtain ⟨hp1, _⟩ := hSupL p hp
      obtain ⟨hq1, hq2⟩ := hSupH q hq
      exact not_same_of_sep hp1 hq1 hq2 hdisj
  | .bin lo hi, curA, X, hSI, hnd => by
    rw [SubInv] at hSI
    obtain ⟨hX2, hXD2, hcLo, hcHi, hSlo, hShi⟩ := hSI
    rw [vals_bin] at hnd
    have haxD : X - 1 < c.D := by omega
    obtain ⟨hSupL, hMemL, hOnceL⟩ := bisecPairs_spec c hD lo (loBox curA (X-1)) (X-1) hSlo
        (nodup_keys_append_left hnd)
    obtain ⟨hSupH, hMemH, hOnceH⟩ := bisecPairs_spec c hD hi (hiBox curA (X-1)) (X-1) hShi
        (nodup_keys_append_right hnd)
    have hdisj : ∀ k ∈ keysOf (BiSec.vals lo), k ∉ keysOf (BiSec.vals hi) :=
      fun k hk => nodup_keys_append_disj hnd hk
    have hsep : ∀ {u w : ℕ} {bu bw : Box}, (u, bu) ∈ BiSec.vals lo → (w, bw) ∈ BiSec.vals hi →
        Box.Intersect c.D bu bw = false :=
      fun hu hw => subInv_separation haxD hcLo hcHi hu hw
    have hshape : BiSec.FindPairs c.D (.bin lo hi) =
        BiSec.FindPairs c.D lo ++ BiSec.FindPairs c.D hi := rfl
    rw [hshape, vals_bin]
    refine ⟨?_, ?_, ?_⟩
    · intro p hp
      rw [List.mem_append] at hp
      rw [keysOf_append]
      rcases hp with hp | hp
      · obtain ⟨h1, h2⟩ := hSupL p hp
        exact ⟨List.mem_append_left _ h1, List.mem_append_left _ h2⟩
      · obtain ⟨h1, h2⟩ := hSupH p hp
        exact ⟨List.mem_append_right _ h1, List.mem_append_right _ h2⟩
    · intro u w
      rw [pairMem_append, hMemL u w, hMemH u w, bruteP, bruteP, bruteP]
      constructor
      · rintro (⟨hne, bu, bw, h1, h2, hI⟩ | ⟨hne, bu, bw, h1, h2, hI⟩)
        · exact ⟨hne, bu, bw, List.mem_append_left _ h1, List.mem_append_left _ h2, hI⟩
        · exact ⟨hne, bu, bw, List.mem_append_right _ h1, List.mem_append_right _ h2, hI⟩
      · rintro ⟨hne, bu, bw, h1, h2, hI⟩
        rcases List.mem_append.mp h1 with h1 | h1 <;> rcases List.mem_append.mp h2 with h2 | h2
        · exact Or.inl ⟨hne, bu, bw, h1, h2, hI⟩
        · rw [hsep h1 h2] at hI
          cases hI
        · rw [intersect_comm, hsep h2 h1] at hI
          cases hI
        · exact Or.inr ⟨hne, bu, bw, h1, h2, hI⟩
    · rw [PairsOnce, List.pairwise_append]
      refine ⟨hOnceL, hOnceH, ?_⟩
      intro p hp q hq
      obtain ⟨hp1, _⟩ := hSupL p hp
      obtain ⟨hq1, hq2⟩ := hSupH q hq
      exact not_same_of_sep hp1 hq1 hq2 hdisj
end

end Orthtree

namespace Orthtree

/-- The brute-force O(n²) pairwise scan over a value/box list: one
triangle pass, each unordered pair tested once. -/
def bruteScan (D : ℕ) : List (ℕ × Box) → List (ℕ × ℕ)
  | [] => []
  | (v, b) :: rest =>
    ((rest.filter fun p => Box.Intersect D b p.2).map fun p => (v, p.1)) ++ bruteScan D rest

theorem bucketLoop_none_eq {D : ℕ} : ∀ bucket, bucketLoop D none bucket = bruteScan D bucket
  | [] => rfl
  | (v, b) :: rest => by
    simp only [bucketLoop, bruteScan, List.append_nil, bucketLoop_none_eq rest]

theorem bruteScan_spec {D : ℕ} {l : List (ℕ × Box)} (hnd : (keysOf l).Nodup) :
    (∀ u w, pairMem u w (bruteScan D l) ↔ bruteP D l u w) ∧ PairsOnce (bruteScan D l) := by
  have hnd2 : (keysOf (subValsOf none ++ l)).Nodup := by
    rw [subValsOf_none, List.nil_append]
    exact hnd
  obtain ⟨hSup, hMem, hOnce⟩ := @bucketLoop_spec D none l hnd2
  rw [← bucketLoop_none_eq]
  refine ⟨?_, hOnce⟩
  intro u w
  rw [hMem u w, bruteP]
  constructor
  · rintro ⟨hne, bu, bw, hI, hc⟩
    rcases hc with ⟨h1, h2⟩ | ⟨h1, h2⟩ | ⟨h1, h2⟩
    · exact ⟨hne, bu, bw, h1, h2, hI⟩
    · rw [subValsOf_none] at h2
      cases h2
    · rw [subValsOf_none] at h2
      cases h2
  · rintro ⟨hne, bu, bw, h1, h2, hI⟩
    exact ⟨hne, bu, bw, hI, Or.inl ⟨h1, h2⟩⟩

/-! Mode-agnostic membership: a successful `Add` makes the value findable
in the subtree (used for the routing claim). -/

theorem addMemIn_all (c : Cfg) :
    ∀ fuel,
      (∀ n v b n1, Box.WFb c.D b = true → 0 < c.D → Node.Add c fuel n v b = some n1 →
        v ∈ keysOf (Node.vals n1)) ∧
      (∀ s X v b A s1, Box.WFb c.D b = true → X - 1 < c.D →
        BiSec.AddVal c fuel s X v b A = some s1 → v ∈ keysOf (BiSec.vals s1)) := by
  intro fuel
  induction fuel with
  | zero =>
    refine ⟨?_, ?_⟩
    · intro n v b n1 _ _ hstep
      cases hstep
    · intro s X v b A s1 _ _ hstep
      cases hstep
  | succ fuel ih =>
    obtain ⟨ihN, ihB⟩ := ih
    refine ⟨?_, ?_⟩
    · rintro ⟨area, lvl, bucket, cnt, sub⟩ v b n1 hwb hD hstep
      cases sub with
      | none =>
        simp only [Node.Add] at hstep
        by_cases hcond : (!(canFallDeeper c area b) || decide (bucket.length < c.G)) = true
        · rw [if_pos hcond] at hstep
          obtain rfl := Option.some.inj hstep
          rw [vals_mk_none, emplace]
          by_cases hc : containsKey bucket v = true
          · rw [if_pos hc]
            exact containsKey_iff.mp hc
          · rw [if_neg hc, keysOf_append, List.mem_append]
            exact Or.inr (List.mem_singleton_self v)
        · rw [if_neg hcond] at hstep
          cases hAL : BiSec.AddList c fuel (mkBiSec c.D area (lvl+1))
              (bucket.filter fun p => canFallDeeper c area p.2) area with
          | none =>
            rw [hAL, Option.none_bind] at hstep
            cases hstep
          | some s1 =>
            rw [hAL, Option.some_bind] at hstep
            cases hAV : BiSec.AddVal c fuel s1 c.D v b area with
            | none =>
              rw [hAV, Option.map_none'] at hstep
              cases hstep
            | some s2 =>
              rw [hAV, Option.map_some'] at hstep
              obtain rfl := Option.some.inj hstep
              rw [vals_mk_some, keysOf_append, List.mem_append]
              exact Or.inl (ihB s1 c.D v b area s2 hwb (by omega) hAV)
      | some s =>
        simp only [Node.Add] at hstep
        by_cases hcf : canFallDeeper c area b = true
        · rw [if_neg (by simp [hcf])] at hstep
          cases hAV : BiSec.AddVal c fuel s c.D v b area with
          | none =>
            rw [hAV, Option.map_none'] at hstep
            cases hstep
          | some s1 =>
            rw [hAV, Option.map_some'] at hstep
            obtain rfl := Option.some.inj hstep
            rw [vals_mk_some, keysOf_append, List.mem_append]
            exact Or.inl (ihB s c.D v b area s1 hwb (by omega) hAV)
        · rw [if_pos (by
              rw [Bool.not_eq_true] at hcf
              rw [hcf]
              rfl)] at hstep
          obtain rfl := Option.some.inj hstep
          rw [vals_mk_some, keysOf_append, List.mem_append, emplace]
          by_cases hc : containsKey bucket v = true
          · rw [if_pos hc]
            exact Or.inr (containsKey_iff.mp hc)
          · rw [if_neg hc]
            refine Or.inr ?_
            rw [keysOf_append, List.mem_append]
            exact Or.inr (List.mem_singleton_self v)
    · rintro s X v b A s1 hwb hXD hstep
      have hD : 0 < c.D := by omega
      cases s with
      | leaf lo hi =>
        simp only [BiSec.AddVal] at hstep
        have hwb0 : b.pntMin 0 ≤ b.pntMax 0 := wfb_iff.mp hwb 0 hD
        by_cases hhi : b.pntMax 0 ≥ (A.pntMax 0 + A.pntMin 0) / 2
        · rw [if_pos hhi] at hstep
          cases hNA : Node.Add c fuel hi v b with
          | none =>
            rw [hNA, Option.none_bind] at hstep
            cases hstep
          | some hi1 =>
            rw [hNA, Option.some_bind] at hstep
            cases hM : (if b.pntMin 0 ≤ (A.pntMax 0 + A.pntMin 0) / 2
                then Node.Add c fuel lo v b else some lo) with
            | none =>
              rw [hM, Option.map_none'] at hstep
              cases hstep
            | some lo1 =>
              rw [hM, Option.map_some'] at hstep
              obtain rfl := Option.some.inj hstep
              rw [vals_leaf, keysOf_append, List.mem_append]
              exact Or.inr (ihN hi v b hi1 hwb hD hNA)
        · rw [if_neg hhi, Option.some_bind] at hstep
          have hlo : b.pntMin 0 ≤ (A.pntMax 0 + A.pntMin 0) / 2 := by
            rw [not_le] at hhi
            exact le_trans hwb0 (le_of_lt hhi)
          rw [if_pos hlo] at hstep
          cases hNA : Node.Add c fuel lo v b with
          | none =>
            rw [hNA, Option.map_none'] at hstep
            cases hstep
          | some lo1 =>
            rw [hNA, Option.map_some'] at hstep
            obtain rfl := Option.some.inj hstep
            rw [vals_leaf, keysOf_append, List.mem_append]
            exact Or.inl (ihN lo v b lo1 hwb hD hNA)
      | bin lo hi =>
        simp only [BiSec.AddVal] at hstep
        have hwbx : b.pntMin (X-1) ≤ b.pntMax (X-1) := wfb_iff.mp hwb (X-1) hXD
        by_cases hlo : b.pntMin (X-1) ≤ (A.pntMax (X-1) + A.pntMin (X-1)) / 2
        · rw [if_pos hlo] at hstep
          cases hBA : BiSec.AddVal c fuel lo (X-1) v b A with
          | none =>
            rw [hBA, Option.none_bind] at hstep
            cases hstep
          | some lo1 =>
            rw [hBA, Option.some_bind] at hstep
            cases hM : (if b.pntMax (X-1) ≥ (A.pntMax (X-1) + A.pntMin (X-1)) / 2
                then BiSec.AddVal c fuel hi (X-1) v b A else some hi) with
            | none =>
              rw [hM, Option.map_none'] at hstep
              cases hstep
            | some hi1 =>
              rw [hM, Option.map_some'] at hstep
              obtain rfl := Option.some.inj hstep
              rw [vals_bin, keysOf_append, List.mem_append]
              exact Or.inl (ihB lo (X-1) v b A lo1 hwb (by omega) hBA)
        · rw [if_neg hlo, Option.some_bind] at hstep
          have hhi : b.pntMax (X-1) ≥ (A.pntMax (X-1) + A.pntMin (X-1)) / 2 := by
            rw [not_le] at hlo
            exact le_trans (le_of_lt hlo) hwbx
          rw [if_pos hhi] at hstep
          cases hBA : BiSec.AddVal c fuel hi (X-1) v b A with
          | none =>
            rw [hBA, Option.map_none'] at hstep
            cases hstep
          | some hi1 =>
            rw [hBA, Option.map_some'] at hstep
            obtain rfl := Option.some.inj hstep
            rw [vals_bin, keysOf_append, List.mem_append]
            exact Or.inr (ihB hi (X-1) v b A hi1 hwb (by omega) hBA)

end Orthtree

namespace Orthtree

/-! The loop invariant of `Box::Intersection`. -/

theorem interGo_spec (a b : Box) : ∀ (l : List ℕ) (acc : Box),
    ((Box.interGo a b acc l).isSome = true ↔
      ∀ i ∈ l, max (a.pntMin i) (b.pntMin i) ≤ min (a.pntMax i) (b.pntMax i)) ∧
    (∀ cbox, Box.interGo a b acc l = some cbox →
      (∀ i ∈ l, cbox.pntMin i = max (a.pntMin i) (b.pntMin i) ∧
                cbox.pntMax i = min (a.pntMax i) (b.pntMax i)) ∧
      (∀ i, i ∉ l → cbox.pntMin i = acc.pntMin i ∧ cbox.pntMax i = acc.pntMax i))
  | [], acc => by
    refine ⟨by simp [Box.interGo], ?_⟩
    intro cbox hc
    obtain rfl := Option.some.inj hc
    exact ⟨fun i hi => absurd hi (List.not_mem_nil i), fun i _ => ⟨rfl, rfl⟩⟩
  | i :: rest, acc => by
    have hunf : Box.interGo a b acc (i :: rest) =
        if max (a.pntMin i) (b.pntMin i) > min (a.pntMax i) (b.pntMax i) then none
        else Box.interGo a b
          ⟨Function.update acc.pntMin i (max (a.pntMin i) (b.pntMin i)),
           Function.update acc.pntMax i (min (a.pntMax i) (b.pntMax i))⟩ rest := by
      simp [Box.interGo, Function.update_same]
    by_cases hbad : max (a.pntMin i) (b.pntMin i) > min (a.pntMax i) (b.pntMax i)
    · rw [hunf, if_pos hbad]
      refine ⟨?_, ?_⟩
      · simp only [Option.isSome_none]
        constructor
        · intro h
          cases h
        · intro h
          exact absurd (h i (List.mem_cons_self i rest)) (not_le.mpr hbad)
      · intro cbox hc
        cases hc
    · rw [hunf, if_neg hbad]
      have hle : max (a.pntMin i) (b.pntMin i) ≤ min (a.pntMax i) (b.pntMax i) :=
        not_lt.mp hbad
      obtain ⟨ihS, ihC⟩ := interGo_spec a b rest
        ⟨Function.update acc.pntMin i (max (a.pntMin i) (b.pntMin i)),
         Function.update acc.pntMax i (min (a.pntMax i) (b.pntMax i))⟩
      refine ⟨?_, ?_⟩
      · rw [ihS]
        constructor
        · intro h j hj
          rcases List.mem_cons.mp hj with rfl | hj
          · exact hle
          · exact h j hj
        · intro h j hj
          exact h j (List.mem_cons_of_mem i hj)
      · intro cbox hc
        obtain ⟨hmem, hpres⟩ := ihC cbox hc
        refine ⟨?_, ?_⟩
        · intro j hj
          rcases List.mem_cons.mp hj with rfl | hj
          · by_cases hjr : j ∈ rest
            · exact hmem j hjr
            · obtain ⟨h1, h2⟩ := hpres j hjr
              rw [h1, h2]
              constructor
              · exact Function.update_same j _ _
              · exact Function.update_same j _ _
          · exact hmem j hj
        · intro j hj
          have hji : j ≠ i := fun h => hj (h ▸ List.mem_cons_self i rest)
          have hjr : j ∉ rest := fun h => hj (List.mem_cons_of_mem i h)
          obtain ⟨h1, h2⟩ := hpres j hjr
          rw [h1, h2]
          constructor
          · exact Function.update_noteq hji _ _
          · exact Function.update_noteq hji _ _

theorem intersect_iff_boxes {D : ℕ} {a b : Box}
    (ha : Box.WFb D a = true) (hb : Box.WFb D b = true) :
    Box.Intersect D a b = true ↔
      ∀ i < D, max (a.pntMin i) (b.pntMin i) ≤ min (a.pntMax i) (b.pntMax i) := by
  rw [intersect_iff]
  constructor
  · intro h i hi
    obtain ⟨h1, h2⟩ := h i hi
    have hwa := wfb_iff.mp ha i hi
    have hwb := wfb_iff.mp hb i hi
    rw [max_le_iff, le_min_iff, le_min_iff]
    exact ⟨⟨hwa, h1⟩, ⟨h2, hwb⟩⟩
  · intro h i hi
    have := h i hi
    rw [max_le_iff, le_min_iff, le_min_iff] at this
    exact ⟨this.1.2, this.2.1⟩

end Orthtree

namespace Orthtree

/-! Registry bookkeeping helpers for the `Add`/`Del` effects. -/

theorem lookupKey_append_fresh {l : List (ℕ × Box)} {v : ℕ} {b : Box}
    (h : containsKey l v = false) : lookupKey (l ++ [(v, b)]) v = some b := by
  induction l with
  | nil =>
    rw [List.nil_append, lookupKey_cons, if_pos rfl]
  | cons p rest ih =>
    rw [containsKey, List.any_cons, Bool.or_eq_false_iff] at h
    have hne : p.1 ≠ v := by
      intro he
      rw [he] at h
      simp at h
    obtain ⟨k, bk⟩ := p
    rw [List.cons_append, lookupKey_cons, if_neg hne]
    exact ih h.2

theorem containsKey_emplace_self {l : List (ℕ × Box)} {v : ℕ} {b : Box} :
    containsKey (emplace l v b) v = true := by
  rw [emplace]
  by_cases h : containsKey l v = true
  · rw [if_pos h]
    exact h
  · rw [if_neg h, containsKey, List.any_append]
    simp [containsKey]

theorem lookupKey_emplace_fresh {l : List (ℕ × Box)} {v : ℕ} {b : Box}
    (h : containsKey l v = false) : lookupKey (emplace l v b) v = some b := by
  rw [emplace, if_neg (by rw [h]; exact Bool.false_ne_true)]
  exact lookupKey_append_fresh h

theorem containsKey_eraseKey_self {l : List (ℕ × Box)} {v : ℕ} :
    containsKey (eraseKey l v) v = false := by
  rw [Bool.eq_false_iff]
  intro h
  have := containsKey_iff.mp h
  exact (mem_keysOf_eraseKey.mp this).2 rfl

/-! Side observers of a bisection level, for the routing claim. -/

/-- The values stored below the Low side of a bisection level. -/
def BiSec.lowVals : BiSec → List (ℕ × Box)
  | .leaf lo _ => Node.vals lo
  | .bin lo _ => BiSec.vals lo

/-- The values stored below the High side of a bisection level. -/
def BiSec.highVals : BiSec → List (ℕ × Box)
  | .leaf _ hi => Node.vals hi
  | .bin _ hi => BiSec.vals hi

/-- The coordinate axis a bisection level splits on: `X - 1` on an inner
level, axis `0` at the final `leaf` level (where `X = 1`). -/
def BiSec.axisOf : BiSec → ℕ → ℕ
  | .leaf _ _, _ => 0
  | .bin _ _, X => X - 1

/-! A small operation language over the tree, to state that queries do not
mutate.  Mutators return the successor state; queries return an answer. -/

/-- One public `Tree` operation. -/
inductive Op where
  | add (v : ℕ) (b : Box)
  | del (v : ℕ)
  | change (v : ℕ) (b : Box)
  | clear
  | contains (v : ℕ)
  | getBox (v : ℕ)
  | getAll
  | findPairs
  | findBox (b : Box)
  | findVal (v : ℕ)

/-- An operation answer. -/
inductive Out where
  | unit
  | bool (b : Bool)
  | optBox (b : Option Box)
  | reg (l : List (ℕ × Box))
  | pairs (l : List (ℕ × ℕ))
  | vals (l : List ℕ)
  | optVals (l : Option (List ℕ))

/-- The `const` member functions of `Tree`. -/
def Op.isQuery : Op → Bool
  | .contains _ => true
  | .getBox _ => true
  | .getAll => true
  | .findPairs => true
  | .findBox _ => true
  | .findVal _ => true
  | _ => false

/-- Run one operation: the resulting tree state and the answer. -/
def Tree.runOp (c : Cfg) (fuel : ℕ) (t : Tree) : Op → Option Tree × Out
  | .add v b => (Tree.Add c fuel t v b, .unit)
  | .del v => (Tree.Del c t v, .unit)
  | .change v b => (Tree.Change c fuel t v b, .unit)
  | .clear => (some (Tree.Clear t), .unit)
  | .contains v => (some t, .bool (Tree.Contains t v))
  | .getBox v => (some t, .optBox (Tree.GetBox t v))
  | .getAll => (some t, .reg (Tree.GetAllValues t))
  | .findPairs => (some t, .pairs (Tree.FindIntersectedPairs c t))
  | .findBox b => (some t, .vals (Tree.FindIntersectedBox c t b))
  | .findVal v => (some t, .optVals (Tree.FindIntersectedVal c t v))

end Orthtree

namespace Orthtree

/-! Concrete example trees, used to exhibit behaviours and to instantiate
the general theorems. -/

/-- A one-dimensional (constant-in-`i`) box `[x, y]`. -/
def bxc (x y : ℚ) : Box := ⟨fun _ => x, fun _ => y⟩

/-- `GROUP_COUNT = 1`, exclusive mode, `DIM = 1`. -/
def cfgE : Cfg := ⟨1, false, 1⟩

/-- `GROUP_COUNT = 2`, shared mode (`NODES_SHARE_VAL = true`), `DIM = 1`. -/
def cfgS : Cfg := ⟨2, true, 1⟩

def trE0 : Tree := Tree.new (bxc 0 8)

def trE1 : Tree := (Tree.Add cfgE 20 trE0 1 (bxc 1 2)).getD trE0

def trE2 : Tree := (Tree.Add cfgE 20 trE1 2 (bxc (3/2) (5/2))).getD trE0

def trE3 : Tree := (Tree.Add cfgE 20 trE2 3 (bxc 6 7)).getD trE0

def trS0 : Tree := Tree.new (bxc 0 8)

def trS1 : Tree := (Tree.Add cfgS 20 trS0 1 (bxc 3 5)).getD trS0

def trS2 : Tree := (Tree.Add cfgS 20 trS1 2 (bxc 3 5)).getD trS0

def trS3 : Tree := (Tree.Add cfgS 20 trS2 3 (bxc 1 (3/2))).getD trS0

theorem reachE3 : Reach cfgE trE3 := by
  have h0 : Reach cfgE trE0 := Reach.init (bxc 0 8) (by decide)
  have s1 : Tree.Add cfgE 20 trE0 1 (bxc 1 2) = some trE1 := rfl
  have h1 : Reach cfgE trE1 := Reach.add h0 (by decide) (by decide) s1
  have s2 : Tree.Add cfgE 20 trE1 2 (bxc (3/2) (5/2)) = some trE2 := rfl
  have h2 : Reach cfgE trE2 := Reach.add h1 (by decide) (by decide) s2
  have s3 : Tree.Add cfgE 20 trE2 3 (bxc 6 7) = some trE3 := rfl
  exact Reach.add h2 (by decide) (by decide) s3

theorem reachS3 : Reach cfgS trS3 := by
  have h0 : Reach cfgS trS0 := Reach.init (bxc 0 8) (by decide)
  have s1 : Tree.Add cfgS 20 trS0 1 (bxc 3 5) = some trS1 := rfl
  have h1 : Reach cfgS trS1 := Reach.add h0 (by decide) (by decide) s1
  have s2 : Tree.Add cfgS 20 trS1 2 (bxc 3 5) = some trS2 := rfl
  have h2 : Reach cfgS trS2 := Reach.add h1 (by decide) (by decide) s2
  have s3 : Tree.Add cfgS 20 trS2 3 (bxc 1 (3/2)) = some trS3 := rfl
  exact Reach.add h2 (by decide) (by decide) s3

end Orthtree

namespace Orthtree

/-- C1 (amended): in the default exclusive mode (`NODES_SHARE_VAL = false`),
for any `GROUP_COUNT ≥ 1`, `DIM ≥ 1` and any tree reachable by `Add`/`Del`
under the documented preconditions, `Tree::FindIntersected()` returns
exactly the unordered pairs of distinct registered values whose stored
boxes intersect — the brute-force pairwise scan of the registry — with each
unordered pair reported exactly once.  (In shared mode the uniqueness part
fails: `c1_shared_duplicate_pair`.) -/
theorem c1_find_pairs_brute_force (c : Cfg) (hsh : c.SH = false)
    (hG : 0 < c.G) (hD : 0 < c.D) {t : Tree} (hr : Reach c t) :
    PairsOnce (Tree.FindIntersectedPairs c t) ∧
    PairsOnce (bruteScan c.D t.allValues) ∧
    (∀ u w, pairMem u w (Tree.FindIntersectedPairs c t) ↔
      pairMem u w (bruteScan c.D t.allValues)) := by
  obtain ⟨hIn, hPerm⟩ := reach_inv hsh hD hr
  obtain ⟨hSup, hMem, hOnce⟩ := nodePairs_spec c hD t.root hIn
  have hndreg : (keysOf t.allValues).Nodup :=
    nodup_of_perm_keys hPerm (nodeInv_nodup hIn)
  obtain ⟨hMemB, hOnceB⟩ := bruteScan_spec hndreg
  refine ⟨hOnce, hOnceB, ?_⟩
  intro u w
  show pairMem u w (Node.FindPairs c.D t.root) ↔ _
  rw [hMem u w, hMemB u w]
  exact bruteP_perm hPerm

/-- C1, witness: the exclusive three-value example tree: the single
intersecting pair `{1, 2}` is reported once and matches the brute scan. -/
theorem c1_find_pairs_brute_force_witness :
    PairsOnce (Tree.FindIntersectedPairs cfgE trE3) ∧
    (pairMem 1 2 (Tree.FindIntersectedPairs cfgE trE3) ↔
      pairMem 1 2 (bruteScan cfgE.D trE3.allValues)) ∧
    Tree.FindIntersectedPairs cfgE trE3 = [(1, 2)] := by
  have h := c1_find_pairs_brute_force cfgE rfl (by decide) (by decide) reachE3
  exact ⟨h.1, h.2.2 1 2, rfl⟩

/-- C1, counterexample to the claim as stated (which asserts uniqueness for
either SHARED setting): in shared mode (`NODES_SHARE_VAL = true`,
`GROUP_COUNT = 2`, region `[0,8]`) the reachable tree holding
`1 ↦ [3,5]`, `2 ↦ [3,5]`, `3 ↦ [1,3/2]` reports the unordered pair
`{1, 2}` twice, because both values straddle the root midpoint and are
duplicated into both children. -/
theorem c1_shared_duplicate_pair :
    Reach cfgS trS3 ∧
    Tree.FindIntersectedPairs cfgS trS3 = [(1, 2), (1, 2)] ∧
    ¬ PairsOnce (Tree.FindIntersectedPairs cfgS trS3) := by
  refine ⟨reachS3, rfl, ?_⟩
  intro h
  rw [show Tree.FindIntersectedPairs cfgS trS3 = [(1, 2), (1, 2)] from rfl] at h
  exact (List.pairwise_cons.mp h).1 (1, 2) (List.mem_singleton_self _) (Or.inl rfl)

/-- C2: in the default exclusive mode, after any reachable sequence of
`Add`/`Del`, every registered value sits in exactly one bucket of the whole
node tree (and an unregistered value in none): its multiplicity in the
concatenation of all bucket contents is one. -/
theorem c2_value_in_one_bucket (c : Cfg) (hsh : c.SH = false) (hD : 0 < c.D)
    {t : Tree} (hr : Reach c t) (v : ℕ) :
    (keysOf (Node.vals t.root)).count v = if Tree.Contains t v then 1 else 0 := by
  obtain ⟨hIn, hPerm⟩ := reach_inv hsh hD hr
  have hperm : (keysOf (Node.vals t.root)).Perm (keysOf t.allValues) :=
    keysOf_perm hPerm
  have hnd : (keysOf t.allValues).Nodup :=
    (hperm.nodup_iff).mp (nodeInv_nodup hIn)
  rw [hperm.count_eq]
  by_cases hc : Tree.Contains t v = true
  · rw [if_pos hc]
    exact List.count_eq_one_of_mem hnd (containsKey_iff.mp hc)
  · rw [if_neg hc]
    rw [List.count_eq_zero]
    intro hv
    exact hc (containsKey_iff.mpr hv)

/-- C2, witness: in the example tree, value 2 is stored exactly once across
all buckets and the unregistered value 9 not at all. -/
theorem c2_value_in_one_bucket_witness :
    ((keysOf (Node.vals trE3.root)).count 2 = if Tree.Contains trE3 2 then 1 else 0) ∧
    (keysOf (Node.vals trE3.root)).count 2 = 1 ∧
    (keysOf (Node.vals trE3.root)).count 9 = 0 :=
  ⟨c2_value_in_one_bucket cfgE rfl (by decide) reachE3 2, by decide, by decide⟩

end Orthtree

namespace Orthtree

/-- C3, refuted in code: `Tree::Clear` only calls `m_root.Clear()` and never
touches `m_all_values`, so after one `Add` and a `Clear` the registry still
holds the value: `GetAllValues()` is non-empty, `Contains` still answers
true, yet `FindIntersected()` is empty, and a subsequent `Add` yields a
registry of size 2 where a freshly constructed tree yields size 1. -/
theorem c3_clear_keeps_registry :
    Tree.GetAllValues (Tree.Clear trE1) = [(1, bxc 1 2)] ∧
    Tree.Contains (Tree.Clear trE1) 1 = true ∧
    Tree.FindIntersectedPairs cfgE (Tree.Clear trE1) = [] ∧
    ((Tree.Add cfgE 20 (Tree.Clear trE1) 2 (bxc 3 4)).map
      fun t => (Tree.GetAllValues t).length) = some 2 ∧
    ((Tree.Add cfgE 20 (Tree.new (bxc 0 8)) 2 (bxc 3 4)).map
      fun t => (Tree.GetAllValues t).length) = some 1 :=
  ⟨rfl, rfl, rfl, by decide, by decide⟩

/-- `GROUP_COUNT = 10`, exclusive mode, `DIM = 1`, for the node-level C4
example. -/
def cfgN : Cfg := ⟨10, false, 1⟩

def ndC4 : Node := Node.mk (bxc 0 1) 1 [] 0 none

def ndC4a : Node := (Node.Add cfgN 5 ndC4 7 (bxc (1/4) (1/2))).getD ndC4

/-- C4, refuted in code: `Node::Clear` clears the bucket and discards the
subdivision but never resets `m_values_count`, so after one `Add`
(`total_count = 1`, matching adds − dels) a `Clear` leaves `total_count`
at 1 instead of 0, while region and level are indeed unchanged. -/
theorem c4_clear_keeps_count :
    Node.Add cfgN 5 ndC4 7 (bxc (1/4) (1/2)) = some ndC4a ∧
    Node.cnt ndC4a = 1 ∧
    Node.cnt (Node.Clear ndC4a) = 1 ∧
    Node.bucket (Node.Clear ndC4a) = [] ∧
    Node.sub (Node.Clear ndC4a) = none ∧
    Node.area (Node.Clear ndC4a) = Node.area ndC4a ∧
    Node.level (Node.Clear ndC4a) = Node.level ndC4a :=
  ⟨rfl, rfl, rfl, rfl, rfl, rfl, rfl⟩

/-- C5: in exclusive mode, the tree-level `Add` precondition is the
boundary-inclusive `Contain` of the box in the tree's region while the
per-node assertion is the boundary-exclusive `ContainStrict`; a box equal
to the whole region (touching the boundary) passes the tree-level check
and violates the root node's assertion. -/
theorem c5_boundary_asymmetry (c : Cfg) (t : Tree) (n : Node) (b : Box)
    (hsh : c.SH = false) (hD : 0 < c.D) :
    Tree.AddAreaPre c t b = Box.Contain c.D (Tree.area t) b ∧
    Node.AddAssert c n b = Box.ContainStrict c.D (Node.area n) b ∧
    ∃ (t0 : Tree) (b0 : Box), Tree.AddAreaPre c t0 b0 = true ∧
      Node.AddAssert c t0.root b0 = false := by
  refine ⟨rfl, by simp [Node.AddAssert, hsh], ?_⟩
  refine ⟨Tree.new (bxc 0 1), bxc 0 1, ?_, ?_⟩
  · show Box.Contain c.D (bxc 0 1) (bxc 0 1) = true
    rw [Box.Contain, List.all_eq_true]
    intro i _
    show (!(decide ((0:ℚ) > 0) || decide ((1:ℚ) < 1))) = true
    decide
  · show Node.AddAssert c (Node.mk (bxc 0 1) 1 [] 0 none) (bxc 0 1) = false
    rw [Node.AddAssert, hsh]
    show Box.ContainStrict c.D (bxc 0 1) (bxc 0 1) = false
    refine Bool.eq_false_iff.mpr ?_
    intro h
    rw [Box.ContainStrict, List.all_eq_true] at h
    have h0 := h 0 (List.mem_range.mpr hD)
    revert h0
    show ¬ ((!(decide ((0:ℚ) ≥ 0) || decide ((1:ℚ) ≤ 1))) = true)
    decide

/-- C5, witness: concretely in dimension 1 over region `[0,8]`, the box
`[0,8]` itself satisfies the tree-level precondition and violates the
node-level assertion. -/
theorem c5_boundary_asymmetry_witness :
    Tree.AddAreaPre cfgE trE0 (bxc 0 8) = Box.Contain cfgE.D (Tree.area trE0) (bxc 0 8) ∧
    (∃ (t0 : Tree) (b0 : Box), Tree.AddAreaPre cfgE t0 b0 = true ∧
      Node.AddAssert cfgE t0.root b0 = false) ∧
    Tree.AddAreaPre cfgE trE0 (bxc 0 8) = true ∧
    Node.AddAssert cfgE trE0.root (bxc 0 8) = false := by
  have h := c5_boundary_asymmetry cfgE trE0 trE0.root (bxc 0 8) rfl (by decide)
  exact ⟨h.1, h.2.2, by decide, by decide⟩

/-- C7: for well-formed boxes (the construction invariant of every C++
`Box`), `Intersection` is present exactly when `Intersect` holds, and the
result's corners are the per-axis max-of-mins and min-of-maxes. -/
theorem c7_intersection_iff (D : ℕ) (a b : Box)
    (ha : Box.WFb D a = true) (hb : Box.WFb D b = true) :
    (Box.Intersection D a b).isSome = Box.Intersect D a b ∧
    ∀ cbox, Box.Intersection D a b = some cbox →
      ∀ i < D, cbox.pntMin i = max (a.pntMin i) (b.pntMin i) ∧
               cbox.pntMax i = min (a.pntMax i) (b.pntMax i) := by
  obtain ⟨hS, hC⟩ := interGo_spec a b (List.range D) ⟨fun _ => 0, fun _ => 0⟩
  constructor
  · by_cases h : Box.Intersect D a b = true
    · rw [h, Box.Intersection]
      refine hS.mpr ?_
      intro i hi
      exact (intersect_iff_boxes ha hb).mp h i (List.mem_range.mp hi)
    · rw [Bool.eq_false_iff.mpr h, Box.Intersection]
      refine Bool.eq_false_iff.mpr ?_
      intro hsome
      refine h ((intersect_iff_boxes ha hb).mpr ?_)
      intro i hi
      exact hS.mp hsome i (List.mem_range.mpr hi)
  · intro cbox hc i hi
    exact (hC cbox hc).1 i (List.mem_range.mpr hi)

/-- C7, witness: `[0,2] ∩ [1,3] = [1,2]` in dimension 1, and presence
matches `Intersect`. -/
theorem c7_intersection_iff_witness :
    (Box.Intersection 1 (bxc 0 2) (bxc 1 3)).isSome = Box.Intersect 1 (bxc 0 2) (bxc 1 3) ∧
    Box.Intersect 1 (bxc 0 2) (bxc 1 3) = true ∧
    ((Box.Intersection 1 (bxc 0 2) (bxc 1 3)).map
      fun cb => (cb.pntMin 0, cb.pntMax 0)) = some ((1 : ℚ), (2 : ℚ)) := by
  have h := c7_intersection_iff 1 (bxc 0 2) (bxc 1 3) (by decide) (by decide)
  exact ⟨h.1, by decide, by decide⟩

/-- C8: immediately after a successful `Tree::Add(v, b)` of a fresh value,
`Contains v` is true and `GetBox v` returns `b`; immediately after a
successful `Tree::Del(v)`, `Contains v` is false. -/
theorem c8_registry_effects (c : Cfg) (fuel : ℕ) (t : Tree) (v : ℕ) (b : Box) :
    (∀ t1, Tree.Contains t v = false → Tree.Add c fuel t v b = some t1 →
      Tree.Contains t1 v = true ∧ Tree.GetBox t1 v = some b) ∧
    (∀ t1, Tree.Del c t v = some t1 → Tree.Contains t1 v = false) := by
  constructor
  · intro t1 hfv hstep
    rw [Tree.Add] at hstep
    cases hNA : Node.Add c fuel t.root v b with
    | none =>
      rw [hNA, Option.map_none'] at hstep
      cases hstep
    | some r =>
      rw [hNA, Option.map_some'] at hstep
      obtain rfl := Option.some.inj hstep
      constructor
      · show containsKey (emplace t.allValues v b) v = true
        exact containsKey_emplace_self
      · show lookupKey (emplace t.allValues v b) v = some b
        exact lookupKey_emplace_fresh hfv
  · intro t1 hstep
    rw [Tree.Del] at hstep
    cases hL : lookupKey t.allValues v with
    | none =>
      rw [hL, Option.map_none'] at hstep
      cases hstep
    | some bv =>
      rw [hL, Option.map_some'] at hstep
      obtain rfl := Option.some.inj hstep
      show containsKey (eraseKey t.allValues v) v = false
      exact containsKey_eraseKey_self

/-- C8, witness: adding value 3 with box `[6,7]` to the two-value example
tree registers it with its box; deleting value 1 afterwards unregisters
it. -/
theorem c8_registry_effects_witness :
    Tree.Contains trE3 3 = true ∧
    Tree.GetBox trE3 3 = some (bxc 6 7) ∧
    ((Tree.Del cfgE trE3 1).map fun t => Tree.Contains t 1) = some false := by
  have h := (c8_registry_effects cfgE 20 trE2 3 (bxc 6 7)).1 trE3 (by decide) rfl
  exact ⟨h.1, h.2, by decide⟩

/-- C9: every well-formed box intersects itself, so for a registered value
the query `Tree::FindIntersected(value)` always finds the value itself in
the intersection set (before erasing it): the `No intersection with self`
debug assertion cannot fire on a reachable tree. -/
theorem c9_self_intersection (c : Cfg) (hsh : c.SH = false) (hD : 0 < c.D)
    {t : Tree} (hr : Reach c t) (v : ℕ) (bv : Box) (b : Box) :
    (Box.WFb c.D b = true → Box.Intersect c.D b b = true) ∧
    (Tree.GetBox t v = some bv → v ∈ Tree.FindIntersectedBox c t bv) := by
  constructor
  · exact fun h => intersect_self h
  · intro hget
    obtain ⟨hIn, hPerm⟩ := reach_inv hsh hD hr
    have hmem : (v, bv) ∈ t.allValues := lookupKey_mem hget
    have hmem2 : (v, bv) ∈ Node.vals t.root := hPerm.mem_iff.mpr hmem
    have hwf : Box.WFb c.D bv = true := nodeVals_wf hIn (v, bv) hmem2
    show v ∈ Node.FindBox c.D t.root bv []
    exact (nodeFindBox_mem t.root bv [] v).mpr
      (Or.inr ⟨bv, hmem2, intersect_self hwf⟩)

/-- C9, witness: value 1 with box `[1,2]` in the example tree is found by
the query over its own box. -/
theorem c9_self_intersection_witness :
    Box.Intersect cfgE.D (bxc 1 2) (bxc 1 2) = true ∧
    1 ∈ Tree.FindIntersectedBox cfgE trE3 (bxc 1 2) := by
  have h := c9_self_intersection cfgE rfl (by decide) reachE3 1 (bxc 1 2) (bxc 1 2)
  exact ⟨h.1 (by decide), h.2 rfl⟩

/-- C10: the `const` query operations (`Contains`, `GetBox`,
`GetAllValues` and all three `FindIntersected` overloads) leave the whole
tree state — root node and registry — unchanged. -/
theorem c10_queries_pure (c : Cfg) (fuel : ℕ) (t : Tree) (op : Op)
    (h : Op.isQuery op = true) : (Tree.runOp c fuel t op).1 = some t := by
  cases op <;> first | rfl | exact Bool.noConfusion h

/-- C10, witness: running the pair query on the example tree returns the
very same tree state. -/
theorem c10_queries_pure_witness :
    (Tree.runOp cfgE 20 trE3 Op.findPairs).1 = some trE3 ∧
    Op.isQuery Op.findPairs = true :=
  ⟨c10_queries_pure cfgE 20 trE3 Op.findPairs rfl, rfl⟩

end Orthtree

namespace Orthtree

/-- C6: at every bisection level a successful `Add` of a fresh value routes
it into the Low side if and only if the box's minimum on the level's axis
is `≤` the axis midpoint of the node area, and into the High side if and
only if the box's maximum on that axis is `≥` that midpoint; the two tests
are independent, so a box touching the midpoint exactly lands in both
sides. -/
theorem c6_bisection_routing (c : Cfg) (fuel : ℕ) (s s1 : BiSec) (X v : ℕ)
    (b A : Box) (hwb : Box.WFb c.D b = true) (hax : BiSec.axisOf s X < c.D)
    (hfresh : v ∉ keysOf (BiSec.vals s))
    (hstep : BiSec.AddVal c fuel s X v b A = some s1) :
    (v ∈ keysOf (BiSec.lowVals s1) ↔
      b.pntMin (BiSec.axisOf s X) ≤
        (A.pntMax (BiSec.axisOf s X) + A.pntMin (BiSec.axisOf s X)) / 2) ∧
    (v ∈ keysOf (BiSec.highVals s1) ↔
      b.pntMax (BiSec.axisOf s X) ≥
        (A.pntMax (BiSec.axisOf s X) + A.pntMin (BiSec.axisOf s X)) / 2) := by
  have hD : 0 < c.D := Nat.lt_of_le_of_lt (Nat.zero_le _) hax
  cases fuel with
  | zero => cases hstep
  | succ fuel =>
    cases s with
    | leaf lo hi =>
      simp only [BiSec.axisOf] at hax ⊢
      simp only [BiSec.AddVal] at hstep
      have hfLo : v ∉ keysOf (Node.vals lo) := by
        intro hv
        apply hfresh
        rw [vals_leaf, keysOf_append, List.mem_append]
        exact Or.inl hv
      have hfHi : v ∉ keysOf (Node.vals hi) := by
        intro hv
        apply hfresh
        rw [vals_leaf, keysOf_append, List.mem_append]
        exact Or.inr hv
      by_cases hHi : b.pntMax 0 ≥ (A.pntMax 0 + A.pntMin 0) / 2
      · rw [if_pos hHi] at hstep
        cases hNAhi : Node.Add c fuel hi v b with
        | none =>
          rw [hNAhi, Option.none_bind] at hstep
          cases hstep
        | some hi1 =>
          rw [hNAhi, Option.some_bind] at hstep
          by_cases hLo : b.pntMin 0 ≤ (A.pntMax 0 + A.pntMin 0) / 2
          · rw [if_pos hLo] at hstep
            cases hNAlo : Node.Add c fuel lo v b with
            | none =>
              rw [hNAlo, Option.map_none'] at hstep
              cases hstep
            | some lo1 =>
              rw [hNAlo, Option.map_some'] at hstep
              obtain rfl := Option.some.inj hstep
              constructor
              · exact iff_of_true ((addMemIn_all c fuel).1 lo v b lo1 hwb hD hNAlo) hLo
              · exact iff_of_true ((addMemIn_all c fuel).1 hi v b hi1 hwb hD hNAhi) hHi
          · rw [if_neg hLo, Option.map_some'] at hstep
            obtain rfl := Option.some.inj hstep
            constructor
            · exact iff_of_false hfLo hLo
            · exact iff_of_true ((addMemIn_all c fuel).1 hi v b hi1 hwb hD hNAhi) hHi
      · rw [if_neg hHi, Option.some_bind] at hstep
        by_cases hLo : b.pntMin 0 ≤ (A.pntMax 0 + A.pntMin 0) / 2
        · rw [if_pos hLo] at hstep
          cases hNAlo : Node.Add c fuel lo v b with
          | none =>
            rw [hNAlo, Option.map_none'] at hstep
            cases hstep
          | some lo1 =>
            rw [hNAlo, Option.map_some'] at hstep
            obtain rfl := Option.some.inj hstep
            constructor
            · exact iff_of_true ((addMemIn_all c fuel).1 lo v b lo1 hwb hD hNAlo) hLo
            · exact iff_of_false hfHi hHi
        · rw [if_neg hLo, Option.map_some'] at hstep
          obtain rfl := Option.some.inj hstep
          exact ⟨iff_of_false hfLo hLo, iff_of_false hfHi hHi⟩
    | bin lo hi =>
      simp only [BiSec.axisOf] at hax ⊢
      simp only [BiSec.AddVal] at hstep
      have hfLo : v ∉ keysOf (BiSec.vals lo) := by
        intro hv
        apply hfresh
        rw [vals_bin, keysOf_append, List.mem_append]
        exact Or.inl hv
      have hfHi : v ∉ keysOf (BiSec.vals hi) := by
        intro hv
        apply hfresh
        rw [vals_bin, keysOf_append, List.mem_append]
        exact Or.inr hv
      have hax1 : X - 1 - 1 < c.D := by omega
      by_cases hLo : b.pntMin (X-1) ≤ (A.pntMax (X-1) + A.pntMin (X-1)) / 2
      · rw [if_pos hLo] at hstep
        cases hBAlo : BiSec.AddVal c fuel lo (X-1) v b A with
        | none =>
          rw [hBAlo, Option.none_bind] at hstep
          cases hstep
        | some lo1 =>
          rw [hBAlo, Option.some_bind] at hstep
          by_cases hHi : b.pntMax (X-1) ≥ (A.pntMax (X-1) + A.pntMin (X-1)) / 2
          · rw [if_pos hHi] at hstep
            cases hBAhi : BiSec.AddVal c fuel hi (X-1) v b A with
            | none =>
              rw [hBAhi, Option.map_none'] at hstep
              cases hstep
            | some hi1 =>
              rw [hBAhi, Option.map_some'] at hstep
              obtain rfl := Option.some.inj hstep
              constructor
              · exact iff_of_true ((addMemIn_all c fuel).2 lo (X-1) v b A lo1 hwb hax1 hBAlo) hLo
              · exact iff_of_true ((addMemIn_all c fuel).2 hi (X-1) v b A hi1 hwb hax1 hBAhi) hHi
          · rw [if_neg hHi, Option.map_some'] at hstep
            obtain rfl := Option.some.inj hstep
            constructor
            · exact iff_of_true ((addMemIn_all c fuel).2 lo (X-1) v b A lo1 hwb hax1 hBAlo) hLo
            · exact iff_of_false hfHi hHi
      · rw [if_neg hLo, Option.some_bind] at hstep
        by_cases hHi : b.pntMax (X-1) ≥ (A.pntMax (X-1) + A.pntMin (X-1)) / 2
        · rw [if_pos hHi] at hstep
          cases hBAhi : BiSec.AddVal c fuel hi (X-1) v b A with
          | none =>
            rw [hBAhi, Option.map_none'] at hstep
            cases hstep
          | some hi1 =>
            rw [hBAhi, Option.map_some'] at hstep
            obtain rfl := Option.some.inj hstep
            constructor
            · exact iff_of_false hfLo hLo
            · exact iff_of_true ((addMemIn_all c fuel).2 hi (X-1) v b A hi1 hwb hax1 hBAhi) hHi
        · rw [if_neg hHi, Option.map_some'] at hstep
          obtain rfl := Option.some.inj hstep
          exact ⟨iff_of_false hfLo hLo, iff_of_false hfHi hHi⟩

/-- An empty one-dimensional bisection level over the area `[0,2]`, for
the C6 witness. -/
def sC6 : BiSec := mkBiSec 1 (bxc 0 2) 2

def sC6r : BiSec := (BiSec.AddVal cfgE 10 sC6 1 5 (bxc 1 1) (bxc 0 2)).getD sC6

/-- C6, witness: adding a box `[1,1]` lying exactly on the midpoint 1 of
the area `[0,2]` inserts the value into both the Low and the High side. -/
theorem c6_bisection_routing_witness :
    ((5 ∈ keysOf (BiSec.lowVals sC6r)) ↔
      (bxc 1 1).pntMin (BiSec.axisOf sC6 1) ≤
        ((bxc 0 2).pntMax (BiSec.axisOf sC6 1) +
          (bxc 0 2).pntMin (BiSec.axisOf sC6 1)) / 2) ∧
    ((5 ∈ keysOf (BiSec.highVals sC6r)) ↔
      (bxc 1 1).pntMax (BiSec.axisOf sC6 1) ≥
        ((bxc 0 2).pntMax (BiSec.axisOf sC6 1) +
          (bxc 0 2).pntMin (BiSec.axisOf sC6 1)) / 2) ∧
    5 ∈ keysOf (BiSec.lowVals sC6r) ∧
    5 ∈ keysOf (BiSec.highVals sC6r) := by
  have h := c6_bisection_routing cfgE 10 sC6 sC6r 1 5 (bxc 1 1) (bxc 0 2)
    (by decide) (by decide) (by decide) rfl
  exact ⟨h.1, h.2, by decide, by decide⟩

end Orthtree
